import Mathlib

/-!
# Verification of the SDP wire-format codec

Shallow embedding of the Serial Data Protocol (SDP) wire-format core:
the byte-slice codec (`src/rust/sdp/src/wire_slice.rs`), the streaming
codec (`src/rust/sdp/src/wire.rs`) and the fast-path array decoder
(`src/testdata/generated/rustexp/audiounit/src/wire_slice.rs`).

Buffers are modelled as `List Byte` with `Byte := Fin 256` (exactly the
values a Rust `u8` can hold).  `usize` offsets and lengths are modelled
as `Nat`; a separate machine-arithmetic model (`% 2^64`, with `Option`
tracking panics) is used where overflow of the bounds-check addition
matters.  Rust `f32`/`f64` values are represented by their IEEE-754 bit
patterns (`to_bits`/`from_bits` are bijections and the spec compares
floats by bit pattern), signed integers by mathematical integers in the
two's-complement range.
-/

set_option maxRecDepth 4000

/-- A Rust `u8`. -/
abbrev Byte := Fin 256

namespace SDP

/-! ## Generic list access helpers -/

/-- Read one byte, defaulting to `0` out of range (all uses are guarded
by bounds checks mirroring those of the source). -/
def getByte (buf : List Byte) (i : Nat) : Byte := buf.getD i 0

theorem getByte_nil (i : Nat) : getByte [] i = 0 := by
  cases i <;> rfl

theorem getByte_cons_zero (b : Byte) (l : List Byte) : getByte (b :: l) 0 = b := rfl

theorem getByte_cons_succ (b : Byte) (l : List Byte) (i : Nat) :
    getByte (b :: l) (i + 1) = getByte l i := rfl

theorem getByte_set_self (l : List Byte) (i : Nat) (a : Byte) (h : i < l.length) :
    getByte (l.set i a) i = a := by
  induction l generalizing i with
  | nil => simp at h
  | cons x xs ih =>
    cases i with
    | zero => rfl
    | succ j =>
      simp only [List.set, getByte_cons_succ]
      exact ih j (by simpa using h)

theorem getByte_set_ne (l : List Byte) (i j : Nat) (a : Byte) (h : i ≠ j) :
    getByte (l.set i a) j = getByte l j := by
  induction l generalizing i j with
  | nil => cases i <;> rfl
  | cons x xs ih =>
    cases i with
    | zero =>
      cases j with
      | zero => exact absurd rfl h
      | succ k => rfl
    | succ i' =>
      cases j with
      | zero => rfl
      | succ k =>
        simp only [List.set, getByte_cons_succ]
        exact ih i' k (by omega)

/-- Pointwise characterisation suffices for list equality. -/
theorem list_ext_getByte (l₁ l₂ : List Byte) (hlen : l₁.length = l₂.length)
    (h : ∀ i, i < l₁.length → getByte l₁ i = getByte l₂ i) : l₁ = l₂ := by
  induction l₁ generalizing l₂ with
  | nil => cases l₂ with
    | nil => rfl
    | cons y ys => simp at hlen
  | cons x xs ih =>
    cases l₂ with
    | nil => simp at hlen
    | cons y ys =>
      have hx : x = y := h 0 (by simp)
      have : xs = ys := by
        apply ih ys (by simpa using hlen)
        intro i hi
        have := h (i + 1) (by simpa using Nat.succ_lt_succ hi)
        simpa [getByte_cons_succ] using this
      rw [hx, this]

/-! ## Little-endian byte serialisation of machine integers

`leBytes w v` is the `w`-byte little-endian encoding of `v` (the model of
`LittleEndian::write_uN`); `leVal` is its inverse (`LittleEndian::read_uN`). -/

def leBytes : Nat → Nat → List Byte
  | 0, _ => []
  | w + 1, v => ⟨v % 256, Nat.mod_lt v (by decide)⟩ :: leBytes w (v / 256)

def leVal : List Byte → Nat
  | [] => 0
  | b :: bs => b.val + 256 * leVal bs

theorem length_leBytes (w v : Nat) : (leBytes w v).length = w := by
  induction w generalizing v with
  | zero => rfl
  | succ n ih => simp [leBytes, ih]

theorem leVal_leBytes (w v : Nat) : leVal (leBytes w v) = v % 256 ^ w := by
  induction w generalizing v with
  | zero => simp [leBytes, leVal, Nat.mod_one]
  | succ n ih =>
    simp only [leBytes, leVal, ih]
    rw [Nat.pow_succ, Nat.mul_comm (256 ^ n) 256, Nat.mod_mul]

theorem getByte_leBytes (w v k : Nat) (h : k < w) :
    (getByte (leBytes w v) k).val = v / 256 ^ k % 256 := by
  induction w generalizing v k with
  | zero => omega
  | succ n ih =>
    cases k with
    | zero => simp [leBytes, getByte_cons_zero]
    | succ j =>
      simp only [leBytes, getByte_cons_succ]
      rw [ih (v / 256) j (by omega)]
      rw [Nat.div_div_eq_div_mul, ← Nat.pow_succ']

/-! ## Bulk reads and writes on buffers

`writeBytes` models `copy_from_slice` / `LittleEndian::write_*` (a bulk
in-place write of consecutive bytes); `readBytes` models reading the
slice `&buf[off .. off+n]`.  Both are used only after the source's
bounds checks have passed. -/

def writeBytes (buf : List Byte) (off : Nat) : List Byte → List Byte
  | [] => buf
  | b :: bs => writeBytes (buf.set off b) (off + 1) bs

def readBytes (buf : List Byte) (off : Nat) : Nat → List Byte
  | 0 => []
  | n + 1 => getByte buf off :: readBytes buf (off + 1) n

theorem length_writeBytes (bs : List Byte) (buf : List Byte) (off : Nat) :
    (writeBytes buf off bs).length = buf.length := by
  induction bs generalizing buf off with
  | nil => rfl
  | cons b rest ih => simp [writeBytes, ih]

theorem length_readBytes (buf : List Byte) (off n : Nat) :
    (readBytes buf off n).length = n := by
  induction n generalizing off with
  | zero => rfl
  | succ m ih => simp [readBytes, ih]

theorem getByte_readBytes (buf : List Byte) (off n k : Nat) (h : k < n) :
    getByte (readBytes buf off n) k = getByte buf (off + k) := by
  induction n generalizing off k with
  | zero => omega
  | succ m ih =>
    cases k with
    | zero => simp [readBytes, getByte_cons_zero]
    | succ j =>
      simp only [readBytes, getByte_cons_succ]
      rw [ih (off + 1) j (by omega)]
      congr 1
      omega

theorem getByte_writeBytes (bs : List Byte) (buf : List Byte) (off i : Nat)
    (hb : off + bs.length ≤ buf.length) :
    getByte (writeBytes buf off bs) i =
      if off ≤ i ∧ i < off + bs.length then getByte bs (i - off) else getByte buf i := by
  induction bs generalizing buf off with
  | nil =>
    simp only [writeBytes, List.length_nil]
    have hno : ¬(off ≤ i ∧ i < off + 0) := by omega
    rw [if_neg hno]
  | cons b rest ih =>
    simp only [writeBytes]
    rw [ih (buf.set off b) (off + 1) (by simp at hb ⊢; omega)]
    by_cases hc : off + 1 ≤ i ∧ i < off + 1 + rest.length
    · have hc' : off ≤ i ∧ i < off + (b :: rest).length := by simp; omega
      rw [if_pos hc, if_pos hc']
      have hsub : i - off = (i - (off + 1)) + 1 := by omega
      rw [hsub, getByte_cons_succ]
    · rw [if_neg hc]
      by_cases hc2 : off ≤ i ∧ i < off + (b :: rest).length
      · have hio : i = off := by simp at hc2; omega
        subst hio
        rw [if_pos hc2]
        rw [getByte_set_self buf i b (by simp at hb; omega)]
        simp [getByte_cons_zero]
      · rw [if_neg hc2]
        exact getByte_set_ne buf off i b (by simp at hc2 hc; omega)

/-- Reading back exactly the written range returns the written bytes. -/
theorem readBytes_writeBytes (buf : List Byte) (off : Nat) (bs : List Byte)
    (hb : off + bs.length ≤ buf.length) :
    readBytes (writeBytes buf off bs) off bs.length = bs := by
  apply list_ext_getByte
  · simp [length_readBytes]
  · intro i hi
    rw [length_readBytes] at hi
    rw [getByte_readBytes _ _ _ _ hi, getByte_writeBytes bs buf off (off + i) hb]
    have : off ≤ off + i ∧ off + i < off + bs.length := by omega
    simp [this]

/-- Bytes strictly before the written range are untouched. -/
theorem getByte_writeBytes_before (bs : List Byte) (buf : List Byte) (off i : Nat)
    (hb : off + bs.length ≤ buf.length) (h : i < off) :
    getByte (writeBytes buf off bs) i = getByte buf i := by
  rw [getByte_writeBytes bs buf off i hb]
  have : ¬(off ≤ i ∧ i < off + bs.length) := by omega
  simp [this]

/-- Bytes past the written range are untouched. -/
theorem getByte_writeBytes_after (bs : List Byte) (buf : List Byte) (off i : Nat)
    (hb : off + bs.length ≤ buf.length) (h : off + bs.length ≤ i) :
    getByte (writeBytes buf off bs) i = getByte buf i := by
  rw [getByte_writeBytes bs buf off i hb]
  have : ¬(off ≤ i ∧ i < off + bs.length) := by omega
  simp [this]

/-- In-bounds, `readBytes` is the slice `(buf.drop off).take n`. -/
theorem readBytes_eq_drop_take (buf : List Byte) (off n : Nat)
    (h : off + n ≤ buf.length) :
    readBytes buf off n = (buf.drop off).take n := by
  apply list_ext_getByte
  · simp [length_readBytes]
    omega
  · intro i hi
    rw [length_readBytes] at hi
    rw [getByte_readBytes _ _ _ _ hi]
    unfold getByte
    rw [List.getD_eq_getElem?_getD, List.getD_eq_getElem?_getD,
      List.getElem?_take, List.getElem?_drop]
    simp [hi]

/-- A prefix of a read is a read. -/
theorem readBytes_take (buf : List Byte) (off a n : Nat) (h : a ≤ n) :
    (readBytes buf off n).take a = readBytes buf off a := by
  apply list_ext_getByte
  · simp [length_readBytes]; omega
  · intro i hi
    simp only [List.length_take, length_readBytes] at hi
    have hia : i < a := by omega
    unfold getByte
    rw [List.getD_eq_getElem?_getD, List.getElem?_take]
    simp only [hia, if_pos]
    rw [← List.getD_eq_getElem?_getD]
    rw [show ((readBytes buf off n).getD i 0) = getByte (readBytes buf off n) i from rfl,
      show ((readBytes buf off a).getD i 0) = getByte (readBytes buf off a) i from rfl]
    rw [getByte_readBytes _ _ _ _ (by omega), getByte_readBytes _ _ _ _ hia]

/-- Dropping the first `a` bytes of a read shifts the offset. -/
theorem readBytes_drop (buf : List Byte) (off a n : Nat) (h : a ≤ n) :
    (readBytes buf off n).drop a = readBytes buf (off + a) (n - a) := by
  apply list_ext_getByte
  · simp [length_readBytes]
  · intro i hi
    simp only [List.length_drop, length_readBytes] at hi
    unfold getByte
    rw [List.getD_eq_getElem?_getD, List.getElem?_drop, ← List.getD_eq_getElem?_getD]
    rw [show ((readBytes buf off n).getD (a + i) 0) = getByte (readBytes buf off n) (a + i)
        from rfl,
      show ((readBytes buf (off + a) (n - a)).getD i 0)
        = getByte (readBytes buf (off + a) (n - a)) i from rfl]
    rw [getByte_readBytes _ _ _ _ (by omega), getByte_readBytes _ _ _ _ hi]
    congr 1
    omega

/-- Reading past a cons cell at a positive offset skips it. -/
theorem readBytes_cons_succ (b : Byte) (l : List Byte) (off n : Nat) :
    readBytes (b :: l) (off + 1) n = readBytes l off n := by
  induction n generalizing off with
  | zero => rfl
  | succ m ih => simp [readBytes, getByte_cons_succ, ih]

/-! ## UTF-8 validation

Model of Rust's `std::str::from_utf8` / `String::from_utf8` acceptance
(RFC 3629: minimal encodings of scalar values `U+0000..U+10FFFF`
excluding the surrogate range). -/

/-- Is `c` a UTF-8 continuation byte (`0x80..0xBF`)? -/
def isCont (c : Byte) : Bool := 0x80 ≤ c.val ∧ c.val ≤ 0xBF

/-- Lower bound on the first continuation byte after lead `b`
(`0xA0` after `0xE0`, `0x90` after `0xF0`, else `0x80`). -/
def contLo (b : Byte) : Nat :=
  if b.val = 0xE0 then 0xA0 else if b.val = 0xF0 then 0x90 else 0x80

/-- Upper bound on the first continuation byte after lead `b`
(`0x9F` after `0xED`, excluding surrogates; `0x8F` after `0xF4`,
capping at `U+10FFFF`; else `0xBF`). -/
def contHi (b : Byte) : Nat :=
  if b.val = 0xED then 0x9F else if b.val = 0xF4 then 0x8F else 0xBF

/-- First continuation byte in range for lead `b`. -/
def isCont1 (b c : Byte) : Bool := contLo b ≤ c.val ∧ c.val ≤ contHi b

/-- Number of continuation bytes demanded by lead byte `b`
(`0` marks an invalid lead: a stray continuation, `0xC0`/`0xC1`
overlong leads, or `0xF5..0xFF`). -/
def seqTailLen (b : Byte) : Nat :=
  if 0xC2 ≤ b.val ∧ b.val ≤ 0xDF then 1
  else if 0xE0 ≤ b.val ∧ b.val ≤ 0xEF then 2
  else if 0xF0 ≤ b.val ∧ b.val ≤ 0xF4 then 3
  else 0

/-- The continuation bytes of one sequence are in range: the first in
the lead-specific window, the rest plain continuations. -/
def contsOk (b : Byte) : List Byte → Bool
  | [] => true
  | c :: cs => isCont1 b c && cs.all isCont

/-- Fuel-indexed worker: each step consumes at least one byte, so fuel
equal to the list length always suffices. -/
def validUtf8Fuel : Nat → List Byte → Bool
  | _, [] => true
  | 0, _ :: _ => false
  | fuel + 1, b :: rest =>
    if b.val ≤ 0x7F then validUtf8Fuel fuel rest
    else
      let n := seqTailLen b
      if n = 0 then false
      else if rest.length < n then false
      else contsOk b (rest.take n) && validUtf8Fuel fuel (rest.drop n)

def validUtf8 (l : List Byte) : Bool := validUtf8Fuel l.length l

/-- ASCII bytes prepend transparently to a valid tail. -/
theorem validUtf8_ascii_cons (b : Byte) (l : List Byte) (h : b.val ≤ 0x7F) :
    validUtf8 (b :: l) = validUtf8 l := by
  simp only [validUtf8, List.length_cons, validUtf8Fuel, h, if_pos]

/-! ## Two's-complement reinterpretation

Models Rust's `as uN` / `as iN` casts between same-width signed and
unsigned integers (used by `encode_i*` / `decode_i*`). -/

/-- `v as uN` for an `iN` value `v`, where `m = 2^N`. -/
def toTwos (m : Nat) (v : Int) : Nat := (v % (m : Int)).toNat

/-- `n as iN` for a `uN` value `n`, where `m = 2^N`. -/
def fromTwos (m : Nat) (n : Nat) : Int :=
  if n < m / 2 then (n : Int) else (n : Int) - (m : Int)

theorem fromTwos_toTwos (m : Nat) (v : Int) (hm : 0 < m) (hm2 : m % 2 = 0)
    (hlo : -(m : Int) / 2 ≤ v) (hhi : v < (m : Int) / 2) :
    fromTwos m (toTwos m v) = v := by
  unfold toTwos fromTwos
  have hmz : (m : Int) ≠ 0 := by exact_mod_cast Nat.pos_iff_ne_zero.mp hm
  have h0 : 0 ≤ v % (m : Int) := Int.emod_nonneg v hmz
  have h1 : v % (m : Int) < (m : Int) := Int.emod_lt_of_pos v (by exact_mod_cast hm)
  have htn : ((v % (m : Int)).toNat : Int) = v % (m : Int) := Int.toNat_of_nonneg h0
  have hm2' : ((m / 2 : Nat) : Int) = (m : Int) / 2 := by
    omega
  by_cases hv : 0 ≤ v
  · have : v % (m : Int) = v := Int.emod_eq_of_lt hv (by omega)
    rw [if_pos]
    · omega
    · omega
  · have : v % (m : Int) = v + m := by
      have hrw : (v + (m : Int)) % (m : Int) = v % (m : Int) := by
        have h := Int.add_mul_emod_self_left v (m : Int) 1
        simp only [mul_one] at h
        exact h
      have hlt : v + (m : Int) < (m : Int) := by omega
      have hge : 0 ≤ v + (m : Int) := by omega
      rw [← hrw, Int.emod_eq_of_lt hge hlt]
    rw [if_neg]
    · omega
    · omega

/-! ## The slice codec: `src/rust/sdp/src/wire_slice.rs`

Offsets and lengths are `Nat` (idealized `usize`; the machine-level
overflow behaviour is modelled separately below).  Encoders return the
operation's result together with the buffer after the call, mirroring
the `&mut [u8]` parameter: on error the source returns before writing,
so the buffer comes back unchanged. -/

/-- `wire_slice::Error`.  `InvalidUtf8` carries a `FromUtf8Error` in the
source; the payload adds no semantic information to the model. -/
inductive SliceError where
  | bufferTooSmall (needed available : Nat)
  | invalidUtf8
  | arrayTooLarge (size max : Nat)
  | invalidBool (v : Byte)
deriving DecidableEq

/-- `MAX_ARRAY_SIZE` (both codec files define it as `10_000_000`). -/
def MAX_ARRAY_SIZE : Nat := 10000000

/-- Common shape of `encode_u8/u16/u32/u64`: bounds check (`needed =
offset + width`), then `LittleEndian::write_*` / direct store of the
`w`-byte little-endian image.  `encode_u8`'s source check `offset >=
buf.len()` is the `w = 1` instance of `offset + w > buf.len()`. -/
def encodeFixed (w : Nat) (buf : List Byte) (offset : Nat) (value : Nat) :
    Except SliceError Unit × List Byte :=
  if offset + w > buf.length then
    (.error (.bufferTooSmall (offset + w) buf.length), buf)
  else
    (.ok (), writeBytes buf offset (leBytes w value))

def encode_u8 (buf : List Byte) (offset : Nat) (value : Nat) := encodeFixed 1 buf offset value
def encode_u16 (buf : List Byte) (offset : Nat) (value : Nat) := encodeFixed 2 buf offset value
def encode_u32 (buf : List Byte) (offset : Nat) (value : Nat) := encodeFixed 4 buf offset value
def encode_u64 (buf : List Byte) (offset : Nat) (value : Nat) := encodeFixed 8 buf offset value

/-- `encode_bool`: writes `1` for `true`, `0` for `false`. -/
def encode_bool (buf : List Byte) (offset : Nat) (value : Bool) :
    Except SliceError Unit × List Byte :=
  encodeFixed 1 buf offset (if value then 1 else 0)

def encode_i8 (buf : List Byte) (offset : Nat) (value : Int) :=
  encode_u8 buf offset (toTwos (2 ^ 8) value)
def encode_i16 (buf : List Byte) (offset : Nat) (value : Int) :=
  encode_u16 buf offset (toTwos (2 ^ 16) value)
def encode_i32 (buf : List Byte) (offset : Nat) (value : Int) :=
  encode_u32 buf offset (toTwos (2 ^ 32) value)
def encode_i64 (buf : List Byte) (offset : Nat) (value : Int) :=
  encode_u64 buf offset (toTwos (2 ^ 64) value)

/-- `encode_f32`: the value is its IEEE-754 bit pattern (`value.to_bits`
in the source; `to_bits`/`from_bits` are mutually inverse bit-level
casts, and the spec compares floats by bit pattern). -/
def encode_f32 (buf : List Byte) (offset : Nat) (bits : Nat) := encode_u32 buf offset bits
def encode_f64 (buf : List Byte) (offset : Nat) (bits : Nat) := encode_u64 buf offset bits

/-- Common shape of `decode_u8/u16/u32/u64`: bounds check, then
`LittleEndian::read_*`. -/
def decodeFixed (w : Nat) (buf : List Byte) (offset : Nat) : Except SliceError Nat :=
  if offset + w > buf.length then .error (.bufferTooSmall (offset + w) buf.length)
  else .ok (leVal (readBytes buf offset w))

def decode_u8 (buf : List Byte) (offset : Nat) := decodeFixed 1 buf offset
def decode_u16 (buf : List Byte) (offset : Nat) := decodeFixed 2 buf offset
def decode_u32 (buf : List Byte) (offset : Nat) := decodeFixed 4 buf offset
def decode_u64 (buf : List Byte) (offset : Nat) := decodeFixed 8 buf offset

/-- `decode_bool`: bounds check, then map `0 ↦ false`, `1 ↦ true`,
anything else to `InvalidBool`. -/
def decode_bool (buf : List Byte) (offset : Nat) : Except SliceError Bool :=
  if offset ≥ buf.length then .error (.bufferTooSmall (offset + 1) buf.length)
  else
    let b := getByte buf offset
    if b.val = 0 then .ok false
    else if b.val = 1 then .ok true
    else .error (.invalidBool b)

def decode_i8 (buf : List Byte) (offset : Nat) : Except SliceError Int :=
  (decode_u8 buf offset).map (fromTwos (2 ^ 8))
def decode_i16 (buf : List Byte) (offset : Nat) : Except SliceError Int :=
  (decode_u16 buf offset).map (fromTwos (2 ^ 16))
def decode_i32 (buf : List Byte) (offset : Nat) : Except SliceError Int :=
  (decode_u32 buf offset).map (fromTwos (2 ^ 32))
def decode_i64 (buf : List Byte) (offset : Nat) : Except SliceError Int :=
  (decode_u64 buf offset).map (fromTwos (2 ^ 64))

/-- `decode_f32` / `decode_f64` return the bit pattern
(`fN::from_bits`). -/
def decode_f32 (buf : List Byte) (offset : Nat) := decode_u32 buf offset
def decode_f64 (buf : List Byte) (offset : Nat) := decode_u64 buf offset

/-- `encode_string`: `u32` length prefix (the byte length cast `as u32`,
hence `% 2^32` in the prefix) followed by the UTF-8 payload; a Rust
`&str` is modelled as its byte list, which is valid UTF-8 by the type's
invariant.  Returns the number of bytes written. -/
def encode_string (buf : List Byte) (offset : Nat) (value : List Byte) :
    Except SliceError Nat × List Byte :=
  let total := 4 + value.length
  if offset + total > buf.length then
    (.error (.bufferTooSmall (offset + total) buf.length), buf)
  else
    (.ok total, writeBytes (writeBytes buf offset (leBytes 4 value.length)) (offset + 4) value)

/-- `encode_bytes`: identical layout for raw byte arrays. -/
def encode_bytes (buf : List Byte) (offset : Nat) (value : List Byte) :
    Except SliceError Nat × List Byte :=
  let total := 4 + value.length
  if offset + total > buf.length then
    (.error (.bufferTooSmall (offset + total) buf.length), buf)
  else
    (.ok total, writeBytes (writeBytes buf offset (leBytes 4 value.length)) (offset + 4) value)

/-- `decode_string`: length prefix, `MAX_ARRAY_SIZE` guard, total-range
bounds check, then UTF-8 validation of the payload.  Returns the decoded
string (as its byte list) and `bytes_consumed`. -/
def decode_string (buf : List Byte) (offset : Nat) :
    Except SliceError (List Byte × Nat) :=
  match decode_u32 buf offset with
  | .error e => .error e
  | .ok len =>
    if len > MAX_ARRAY_SIZE then .error (.arrayTooLarge len MAX_ARRAY_SIZE)
    else
      let total := 4 + len
      if offset + total > buf.length then
        .error (.bufferTooSmall (offset + total) buf.length)
      else
        let bytes := readBytes buf (offset + 4) len
        if validUtf8 bytes then .ok (bytes, total) else .error .invalidUtf8

/-- `decode_bytes`: as `decode_string` without UTF-8 validation. -/
def decode_bytes (buf : List Byte) (offset : Nat) :
    Except SliceError (List Byte × Nat) :=
  match decode_u32 buf offset with
  | .error e => .error e
  | .ok len =>
    if len > MAX_ARRAY_SIZE then .error (.arrayTooLarge len MAX_ARRAY_SIZE)
    else
      let total := 4 + len
      if offset + total > buf.length then
        .error (.bufferTooSmall (offset + total) buf.length)
      else
        .ok (readBytes buf (offset + 4) len, total)

/-! ## The streaming codec: `src/rust/sdp/src/wire.rs`

The `Encoder` is instantiated at an in-memory `Vec<u8>` sink (which
never fails), so `write_*` just appends bytes; the `Decoder` is
instantiated at a `&[u8]` source, so its state is the remaining input.
`read_exact` / the `byteorder` `read_*` helpers fail with an
`io::Error` of kind `UnexpectedEof` when the source runs dry, which
surfaces as `Error::Io(..)`. -/

/-- The `std::io::ErrorKind` values reachable from an in-memory
reader. -/
inductive ReadErrKind where
  | unexpectedEof
deriving DecidableEq

/-- `wire::Error`.  `Io` carries an `io::Error` in the source, reduced
here to its kind; `UnexpectedEof` is declared in the source enum but
never constructed by these code paths. -/
inductive WireError where
  | ioError (k : ReadErrKind)
  | invalidUtf8
  | arrayTooLarge (size max : Nat)
  | unexpectedEof
  | invalidBool (v : Byte)
deriving DecidableEq

/-- `Read::read_exact` on a byte-slice source: yields the bytes and the
remaining input, or `Io(UnexpectedEof)`. -/
def readExact (input : List Byte) (n : Nat) : Except WireError (List Byte × List Byte) :=
  if input.length < n then .error (.ioError .unexpectedEof)
  else .ok (input.take n, input.drop n)

/-- Common shape of `Decoder::read_u8/u16/u32/u64`
(`byteorder::ReadBytesExt` reads exactly `w` bytes little-endian). -/
def readFixed (w : Nat) (input : List Byte) : Except WireError (Nat × List Byte) :=
  match readExact input w with
  | .error e => .error e
  | .ok (bs, rest) => .ok (leVal bs, rest)

def read_u8 (input : List Byte) := readFixed 1 input
def read_u16 (input : List Byte) := readFixed 2 input
def read_u32 (input : List Byte) := readFixed 4 input
def read_u64 (input : List Byte) := readFixed 8 input

/-- `Decoder::read_bool`: one byte, `0 ↦ false`, `1 ↦ true`, else
`InvalidBool`. -/
def read_bool (input : List Byte) : Except WireError (Bool × List Byte) :=
  match input with
  | [] => .error (.ioError .unexpectedEof)
  | b :: rest =>
    if b.val = 0 then .ok (false, rest)
    else if b.val = 1 then .ok (true, rest)
    else .error (.invalidBool b)

def read_i8 (input : List Byte) : Except WireError (Int × List Byte) :=
  (read_u8 input).map fun p => (fromTwos (2 ^ 8) p.1, p.2)
def read_i16 (input : List Byte) : Except WireError (Int × List Byte) :=
  (read_u16 input).map fun p => (fromTwos (2 ^ 16) p.1, p.2)
def read_i32 (input : List Byte) : Except WireError (Int × List Byte) :=
  (read_u32 input).map fun p => (fromTwos (2 ^ 32) p.1, p.2)
def read_i64 (input : List Byte) : Except WireError (Int × List Byte) :=
  (read_u64 input).map fun p => (fromTwos (2 ^ 64) p.1, p.2)
def read_f32 (input : List Byte) := read_u32 input
def read_f64 (input : List Byte) := read_u64 input

/-- `Decoder::read_string`: `u32` length, `MAX_ARRAY_SIZE` guard,
`read_exact` of the payload, UTF-8 validation. -/
def read_string (input : List Byte) : Except WireError (List Byte × List Byte) :=
  match read_u32 input with
  | .error e => .error e
  | .ok (len, rest) =>
    if len > MAX_ARRAY_SIZE then .error (.arrayTooLarge len MAX_ARRAY_SIZE)
    else
      match readExact rest len with
      | .error e => .error e
      | .ok (payload, rest2) =>
        if validUtf8 payload then .ok (payload, rest2) else .error .invalidUtf8

/-- `Decoder::read_bytes`: as `read_string` without UTF-8 validation. -/
def read_bytes (input : List Byte) : Except WireError (List Byte × List Byte) :=
  match read_u32 input with
  | .error e => .error e
  | .ok (len, rest) =>
    if len > MAX_ARRAY_SIZE then .error (.arrayTooLarge len MAX_ARRAY_SIZE)
    else
      match readExact rest len with
      | .error e => .error e
      | .ok (payload, rest2) => .ok (payload, rest2)

/-- `Encoder::write_u8/u16/u32/u64` over a `Vec<u8>` sink: append the
little-endian image to the output accumulated so far. -/
def writeFixed (w : Nat) (out : List Byte) (value : Nat) : List Byte :=
  out ++ leBytes w value

def write_u8 (out : List Byte) (value : Nat) := writeFixed 1 out value
def write_u16 (out : List Byte) (value : Nat) := writeFixed 2 out value
def write_u32 (out : List Byte) (value : Nat) := writeFixed 4 out value
def write_u64 (out : List Byte) (value : Nat) := writeFixed 8 out value

def write_bool (out : List Byte) (value : Bool) : List Byte :=
  writeFixed 1 out (if value then 1 else 0)

def write_i8 (out : List Byte) (value : Int) := write_u8 out (toTwos (2 ^ 8) value)
def write_i16 (out : List Byte) (value : Int) := write_u16 out (toTwos (2 ^ 16) value)
def write_i32 (out : List Byte) (value : Int) := write_u32 out (toTwos (2 ^ 32) value)
def write_i64 (out : List Byte) (value : Int) := write_u64 out (toTwos (2 ^ 64) value)
def write_f32 (out : List Byte) (bits : Nat) := write_u32 out bits
def write_f64 (out : List Byte) (bits : Nat) := write_u64 out bits

/-- `Encoder::write_string`: `u32` length prefix (`len as u32`), then
`write_all` of the payload bytes. -/
def write_string (out : List Byte) (value : List Byte) : List Byte :=
  write_u32 out value.length ++ value

def write_bytes (out : List Byte) (value : List Byte) : List Byte :=
  write_u32 out value.length ++ value

/-! ## The fast-path array decoder
(`src/testdata/generated/rustexp/audiounit/src/wire_slice.rs`)

The caller guarantees `bytes.len() == count * width`.  Strategy choice
depends on the host alignment of the source slice, which has no
denotation over byte lists; it enters the model as an uninterpreted
`aligned : Bool` flag.  The host is little-endian (the original
platform; on it `u32::from_le` is the identity and `try_cast_slice`
reinterprets each 4-byte group little-endian). -/

/-- `bytemuck::try_cast_slice::<u8, u32>` view on a little-endian host:
each consecutive 4-byte group, read little-endian. -/
def castU32s : List Byte → List Nat
  | b0 :: b1 :: b2 :: b3 :: rest => leVal [b0, b1, b2, b3] :: castU32s rest
  | _ => []

/-- `ptr::copy_nonoverlapping` of `count * 4` bytes into an aligned
`Vec<u32>`, then reinterpret (little-endian host: no swap pass). -/
def memcpyU32s (bytes : List Byte) (count : Nat) : List Nat :=
  castU32s (bytes.take (4 * count))

/-- The element-wise loop: `ptr::read_unaligned` of each 4-byte group,
then `u32::from_le`. -/
def elemwiseU32s (bytes : List Byte) (count : Nat) : List Nat :=
  (List.range count).map fun i => leVal (readBytes bytes (4 * i) 4)

/-- `decode_u32_array_fast`: aligned zero-copy cast, else bulk memcpy
for `count >= 64`, else element-wise. -/
def decode_u32_array_fast (bytes : List Byte) (count : Nat) (aligned : Bool) :
    Except SliceError (List Nat) :=
  if aligned && bytes.length % 4 == 0 then .ok (castU32s bytes)
  else if count ≥ 64 then .ok (memcpyU32s bytes count)
  else .ok (elemwiseU32s bytes count)

/-- `try_cast_slice::<u8, f64>` view: 8-byte groups, little-endian;
values are `f64` bit patterns. -/
def castF64s : List Byte → List Nat
  | b0 :: b1 :: b2 :: b3 :: b4 :: b5 :: b6 :: b7 :: rest =>
    leVal [b0, b1, b2, b3, b4, b5, b6, b7] :: castF64s rest
  | _ => []

def memcpyF64s (bytes : List Byte) (count : Nat) : List Nat :=
  castF64s (bytes.take (8 * count))

def elemwiseF64s (bytes : List Byte) (count : Nat) : List Nat :=
  (List.range count).map fun i => leVal (readBytes bytes (8 * i) 8)

/-- `decode_f64_array_fast`: memcpy threshold `count >= 32`. -/
def decode_f64_array_fast (bytes : List Byte) (count : Nat) (aligned : Bool) :
    Except SliceError (List Nat) :=
  if aligned && bytes.length % 8 == 0 then .ok (castF64s bytes)
  else if count ≥ 32 then .ok (memcpyF64s bytes count)
  else .ok (elemwiseF64s bytes count)

/-! ## Machine-level (`usize`) model of the bounds check

The source computes `offset + width` in `usize` arithmetic.  In release
builds the addition wraps modulo `2^64`; a wrapped check can pass and
the subsequent slice indexing `&buf[offset..]` then panics (in debug
builds the addition itself panics, so every input that panics below
panics there too).  `none` marks a panic. -/

/-- `usize::MAX + 1` on the 64-bit original platform. -/
def USIZE : Nat := 2 ^ 64

/-- `decode_u32` with release-mode `usize` arithmetic.  After the check
passes, `LittleEndian::read_u32(&buf[offset..])` requires
`offset + 4 ≤ buf.len()` (slicing panics for `offset > len`, and
`byteorder` panics on a source shorter than 4). -/
def decode_u32_mach (buf : List Byte) (offset : Nat) :
    Option (Except SliceError Nat) :=
  if (offset + 4) % USIZE > buf.length then
    some (.error (.bufferTooSmall ((offset + 4) % USIZE) buf.length))
  else if offset + 4 ≤ buf.length then
    some (.ok (leVal (readBytes buf offset 4)))
  else
    none

/-- `encode_u32` with release-mode `usize` arithmetic; the write
`LittleEndian::write_u32(&mut buf[offset..], v)` likewise panics when
fewer than 4 bytes remain past `offset`. -/
def encode_u32_mach (buf : List Byte) (offset : Nat) (value : Nat) :
    Option (Except SliceError Unit × List Byte) :=
  if (offset + 4) % USIZE > buf.length then
    some (.error (.bufferTooSmall ((offset + 4) % USIZE) buf.length), buf)
  else if offset + 4 ≤ buf.length then
    some (.ok (), writeBytes buf offset (leBytes 4 value))
  else
    none

/-! ## Helper lemmas about the codecs -/

theorem readBytes_writeBytes_w (buf : List Byte) (off w v : Nat)
    (h : off + w ≤ buf.length) :
    readBytes (writeBytes buf off (leBytes w v)) off w = leBytes w v := by
  have hb : off + (leBytes w v).length ≤ buf.length := by rw [length_leBytes]; omega
  have := readBytes_writeBytes buf off (leBytes w v) hb
  rwa [length_leBytes] at this

/-- Reads entirely before a write are unaffected by it. -/
theorem readBytes_writeBytes_before (buf : List Byte) (off2 : Nat) (bs : List Byte)
    (off n : Nat) (hb : off2 + bs.length ≤ buf.length) (h : off + n ≤ off2) :
    readBytes (writeBytes buf off2 bs) off n = readBytes buf off n := by
  apply list_ext_getByte
  · simp [length_readBytes]
  · intro i hi
    rw [length_readBytes] at hi
    rw [getByte_readBytes _ _ _ _ hi, getByte_readBytes _ _ _ _ hi]
    exact getByte_writeBytes_before bs buf off2 (off + i) hb (by omega)

/-- Encode-then-decode for the fixed-width core: success, and the value
comes back reduced modulo `2^(8w)` (identity for in-range values). -/
theorem decodeFixed_encodeFixed (w : Nat) (buf : List Byte) (off v : Nat)
    (h : off + w ≤ buf.length) :
    (encodeFixed w buf off v).1 = .ok () ∧
    decodeFixed w (encodeFixed w buf off v).2 off = .ok (v % 256 ^ w) := by
  have hng : ¬(off + w > buf.length) := by omega
  refine ⟨by simp [encodeFixed, hng], ?_⟩
  simp only [encodeFixed, hng, if_false, if_neg, not_false_iff]
  have hlen : (writeBytes buf off (leBytes w v)).length = buf.length :=
    length_writeBytes _ _ _
  unfold decodeFixed
  rw [hlen, if_neg hng, readBytes_writeBytes_w buf off w v h, leVal_leBytes]

theorem toTwos_lt (m : Nat) (v : Int) (hm : 0 < m) : toTwos m v < m := by
  unfold toTwos
  have hmz : (m : Int) ≠ 0 := by exact_mod_cast Nat.pos_iff_ne_zero.mp hm
  have h0 : 0 ≤ v % (m : Int) := Int.emod_nonneg v hmz
  have h1 : v % (m : Int) < (m : Int) := Int.emod_lt_of_pos v (by exact_mod_cast hm)
  omega

/-- What `encode_string` writes on success. -/
theorem encode_string_ok (buf : List Byte) (off : Nat) (s : List Byte)
    (hroom : off + (4 + s.length) ≤ buf.length) :
    (encode_string buf off s).1 = .ok (4 + s.length) ∧
    (encode_string buf off s).2 =
      writeBytes (writeBytes buf off (leBytes 4 s.length)) (off + 4) s := by
  have hng : ¬(off + (4 + s.length) > buf.length) := by omega
  constructor <;> simp [encode_string, hng]

theorem encode_bytes_ok (buf : List Byte) (off : Nat) (s : List Byte)
    (hroom : off + (4 + s.length) ≤ buf.length) :
    (encode_bytes buf off s).1 = .ok (4 + s.length) ∧
    (encode_bytes buf off s).2 =
      writeBytes (writeBytes buf off (leBytes 4 s.length)) (off + 4) s := by
  have hng : ¬(off + (4 + s.length) > buf.length) := by omega
  constructor <;> simp [encode_bytes, hng]

/-- The buffer produced by a successful length-prefixed encode, as seen
by the decoder: prefix region holds `leBytes 4 len`, payload region
holds the payload. -/
theorem encoded_string_regions (buf : List Byte) (off : Nat) (s : List Byte)
    (hroom : off + (4 + s.length) ≤ buf.length) :
    (writeBytes (writeBytes buf off (leBytes 4 s.length)) (off + 4) s).length
      = buf.length ∧
    readBytes (writeBytes (writeBytes buf off (leBytes 4 s.length)) (off + 4) s) off 4
      = leBytes 4 s.length ∧
    readBytes (writeBytes (writeBytes buf off (leBytes 4 s.length)) (off + 4) s)
      (off + 4) s.length = s := by
  have hlen1 : (writeBytes buf off (leBytes 4 s.length)).length = buf.length :=
    length_writeBytes _ _ _
  refine ⟨by rw [length_writeBytes, hlen1], ?_, ?_⟩
  · rw [readBytes_writeBytes_before _ _ _ _ _ (by omega) (by omega)]
    exact readBytes_writeBytes_w buf off 4 s.length (by omega)
  · exact readBytes_writeBytes _ _ _ (by omega)

/-- Master lemma: `decode_string` after `encode_string`, for payloads
whose length fits the `u32` prefix. -/
theorem decode_string_encode_string (buf : List Byte) (off : Nat) (s : List Byte)
    (hroom : off + (4 + s.length) ≤ buf.length) (hlen : s.length < 2 ^ 32) :
    decode_string (encode_string buf off s).2 off =
      if s.length > MAX_ARRAY_SIZE then
        .error (.arrayTooLarge s.length MAX_ARRAY_SIZE)
      else if validUtf8 s then .ok (s, 4 + s.length)
      else .error .invalidUtf8 := by
  obtain ⟨-, hbuf⟩ := encode_string_ok buf off s hroom
  obtain ⟨hl, hpre, hpay⟩ := encoded_string_regions buf off s hroom
  rw [hbuf]
  set buf2 := writeBytes (writeBytes buf off (leBytes 4 s.length)) (off + 4) s with hb2
  have hdec : decode_u32 buf2 off = .ok s.length := by
    unfold decode_u32 decodeFixed
    rw [hl, if_neg (by omega), hpre, leVal_leBytes]
    congr 1
    omega
  unfold decode_string
  rw [hdec]
  by_cases hmax : s.length > MAX_ARRAY_SIZE
  · simp [hmax]
  · rw [if_neg hmax]
    have hbound : ¬(off + (4 + s.length) > buf2.length) := by omega
    simp only [hbound, if_false, if_neg, not_false_iff]
    rw [hpay, if_neg hmax]

/-- Master lemma: `decode_bytes` after `encode_bytes`. -/
theorem decode_bytes_encode_bytes (buf : List Byte) (off : Nat) (s : List Byte)
    (hroom : off + (4 + s.length) ≤ buf.length) (hlen : s.length < 2 ^ 32) :
    decode_bytes (encode_bytes buf off s).2 off =
      if s.length > MAX_ARRAY_SIZE then
        .error (.arrayTooLarge s.length MAX_ARRAY_SIZE)
      else .ok (s, 4 + s.length) := by
  obtain ⟨-, hbuf⟩ := encode_bytes_ok buf off s hroom
  obtain ⟨hl, hpre, hpay⟩ := encoded_string_regions buf off s hroom
  rw [hbuf]
  set buf2 := writeBytes (writeBytes buf off (leBytes 4 s.length)) (off + 4) s with hb2
  have hdec : decode_u32 buf2 off = .ok s.length := by
    unfold decode_u32 decodeFixed
    rw [hl, if_neg (by omega), hpre, leVal_leBytes]
    congr 1
    omega
  unfold decode_bytes
  rw [hdec]
  by_cases hmax : s.length > MAX_ARRAY_SIZE
  · simp [hmax]
  · rw [if_neg hmax]
    have hbound : ¬(off + (4 + s.length) > buf2.length) := by omega
    simp only [hbound, if_false, if_neg, not_false_iff]
    rw [hpay, if_neg hmax]

theorem getByte_after_encodeFixed1 (buf : List Byte) (off v : Nat)
    (h : off + 1 ≤ buf.length) :
    getByte (writeBytes buf off (leBytes 1 v)) off =
      ⟨v % 256, Nat.mod_lt v (by decide)⟩ := by
  have hr := readBytes_writeBytes_w buf off 1 v h
  have hg : getByte (readBytes (writeBytes buf off (leBytes 1 v)) off 1) 0
      = getByte (writeBytes buf off (leBytes 1 v)) (off + 0) :=
    getByte_readBytes _ _ _ _ (by omega)
  rw [hr] at hg
  simpa [leBytes, getByte_cons_zero] using hg.symm

/-- Round-trip for `bool`. -/
theorem decode_bool_encode_bool (buf : List Byte) (off : Nat) (v : Bool)
    (h : off + 1 ≤ buf.length) :
    decode_bool (encode_bool buf off v).2 off = .ok v := by
  unfold encode_bool encodeFixed
  rw [if_neg (by omega)]
  dsimp only
  have hlen : (writeBytes buf off (leBytes 1 (if v then 1 else 0))).length = buf.length :=
    length_writeBytes _ _ _
  unfold decode_bool
  rw [if_neg (by omega), getByte_after_encodeFixed1 buf off _ h]
  cases v <;> simp

/-- Round-trip for signed widths: helper casting chain. -/
theorem signed_roundtrip (k : Nat) (buf : List Byte) (off : Nat) (v : Int)
    (hk : 0 < k)
    (hlo : -(2 ^ (8 * k - 1) : Int) ≤ v) (hhi : v < 2 ^ (8 * k - 1))
    (h : off + k ≤ buf.length) :
    (decodeFixed k (encodeFixed k buf off (toTwos (2 ^ (8 * k)) v)).2 off).map
        (fromTwos (2 ^ (8 * k))) = .ok v := by
  obtain ⟨-, hdec⟩ := decodeFixed_encodeFixed k buf off (toTwos (2 ^ (8 * k)) v) h
  rw [hdec]
  have hpow : (256 : Nat) ^ k = 2 ^ (8 * k) := by
    rw [show (256 : Nat) = 2 ^ 8 from rfl, ← pow_mul]
  have hlt : toTwos (2 ^ (8 * k)) v < 2 ^ (8 * k) :=
    toTwos_lt _ _ (Nat.pos_pow_of_pos _ (by norm_num))
  rw [hpow, Nat.mod_eq_of_lt hlt]
  simp only [Except.map]
  congr 1
  have hhalf : ((2 ^ (8 * k) : Nat) : Int) = 2 * 2 ^ (8 * k - 1) := by
    push_cast
    rw [← pow_succ']
    congr 1
    omega
  apply fromTwos_toTwos
  · exact Nat.pos_pow_of_pos _ (by norm_num)
  · have : 8 * k = (8 * k - 1) + 1 := by omega
    rw [this, Nat.pow_succ, Nat.mul_mod_left]
  · rw [hhalf]
    omega
  · rw [hhalf]
    omega

/-- C1, amended round-trip.  For every primitive wire type, encoding at
any in-bounds offset and decoding from the same offset returns the
original value, and length-prefixed decoders consume exactly the bytes
written — for string/bytes payloads of length at most `MAX_ARRAY_SIZE`
(the restriction the counterexample forces). -/
theorem c1_roundtrip_all_primitives :
    (∀ (buf : List Byte) (off : Nat) (v : Bool), off + 1 ≤ buf.length →
      decode_bool (encode_bool buf off v).2 off = .ok v) ∧
    (∀ (buf : List Byte) (off v : Nat), v < 2 ^ 8 → off + 1 ≤ buf.length →
      decode_u8 (encode_u8 buf off v).2 off = .ok v) ∧
    (∀ (buf : List Byte) (off v : Nat), v < 2 ^ 16 → off + 2 ≤ buf.length →
      decode_u16 (encode_u16 buf off v).2 off = .ok v) ∧
    (∀ (buf : List Byte) (off v : Nat), v < 2 ^ 32 → off + 4 ≤ buf.length →
      decode_u32 (encode_u32 buf off v).2 off = .ok v) ∧
    (∀ (buf : List Byte) (off v : Nat), v < 2 ^ 64 → off + 8 ≤ buf.length →
      decode_u64 (encode_u64 buf off v).2 off = .ok v) ∧
    (∀ (buf : List Byte) (off : Nat) (v : Int), -(2 ^ 7) ≤ v → v < 2 ^ 7 →
      off + 1 ≤ buf.length → decode_i8 (encode_i8 buf off v).2 off = .ok v) ∧
    (∀ (buf : List Byte) (off : Nat) (v : Int), -(2 ^ 15) ≤ v → v < 2 ^ 15 →
      off + 2 ≤ buf.length → decode_i16 (encode_i16 buf off v).2 off = .ok v) ∧
    (∀ (buf : List Byte) (off : Nat) (v : Int), -(2 ^ 31) ≤ v → v < 2 ^ 31 →
      off + 4 ≤ buf.length → decode_i32 (encode_i32 buf off v).2 off = .ok v) ∧
    (∀ (buf : List Byte) (off : Nat) (v : Int), -(2 ^ 63) ≤ v → v < 2 ^ 63 →
      off + 8 ≤ buf.length → decode_i64 (encode_i64 buf off v).2 off = .ok v) ∧
    (∀ (buf : List Byte) (off bits : Nat), bits < 2 ^ 32 → off + 4 ≤ buf.length →
      decode_f32 (encode_f32 buf off bits).2 off = .ok bits) ∧
    (∀ (buf : List Byte) (off bits : Nat), bits < 2 ^ 64 → off + 8 ≤ buf.length →
      decode_f64 (encode_f64 buf off bits).2 off = .ok bits) ∧
    (∀ (buf : List Byte) (off : Nat) (s : List Byte), validUtf8 s = true →
      s.length ≤ MAX_ARRAY_SIZE → off + (4 + s.length) ≤ buf.length →
      (encode_string buf off s).1 = .ok (4 + s.length) ∧
      decode_string (encode_string buf off s).2 off = .ok (s, 4 + s.length)) ∧
    (∀ (buf : List Byte) (off : Nat) (s : List Byte),
      s.length ≤ MAX_ARRAY_SIZE → off + (4 + s.length) ≤ buf.length →
      (encode_bytes buf off s).1 = .ok (4 + s.length) ∧
      decode_bytes (encode_bytes buf off s).2 off = .ok (s, 4 + s.length)) := by
  have hu : ∀ (w : Nat) (buf : List Byte) (off v : Nat), v < 256 ^ w →
      off + w ≤ buf.length →
      decodeFixed w (encodeFixed w buf off v).2 off = .ok v := by
    intro w buf off v hv h
    obtain ⟨-, hdec⟩ := decodeFixed_encodeFixed w buf off v h
    rw [hdec, Nat.mod_eq_of_lt hv]
  refine ⟨decode_bool_encode_bool, ?_, ?_, ?_, ?_, ?_, ?_, ?_, ?_, ?_, ?_, ?_, ?_⟩
  · intro buf off v hv h
    exact hu 1 buf off v (by norm_num at hv ⊢; omega) h
  · intro buf off v hv h
    exact hu 2 buf off v (by norm_num at hv ⊢; omega) h
  · intro buf off v hv h
    exact hu 4 buf off v (by norm_num at hv ⊢; omega) h
  · intro buf off v hv h
    exact hu 8 buf off v (by norm_num at hv ⊢; omega) h
  · intro buf off v hlo hhi h
    exact signed_roundtrip 1 buf off v (by norm_num) (by norm_num at hlo ⊢; omega)
      (by norm_num at hhi ⊢; omega) h
  · intro buf off v hlo hhi h
    exact signed_roundtrip 2 buf off v (by norm_num) (by norm_num at hlo ⊢; omega)
      (by norm_num at hhi ⊢; omega) h
  · intro buf off v hlo hhi h
    exact signed_roundtrip 4 buf off v (by norm_num) (by norm_num at hlo ⊢; omega)
      (by norm_num at hhi ⊢; omega) h
  · intro buf off v hlo hhi h
    exact signed_roundtrip 8 buf off v (by norm_num) (by norm_num at hlo ⊢; omega)
      (by norm_num at hhi ⊢; omega) h
  · intro buf off bits hv h
    exact hu 4 buf off bits (by norm_num at hv ⊢; omega) h
  · intro buf off bits hv h
    exact hu 8 buf off bits (by norm_num at hv ⊢; omega) h
  · intro buf off s hutf hmax hroom
    refine ⟨(encode_string_ok buf off s hroom).1, ?_⟩
    rw [decode_string_encode_string buf off s hroom
      (by unfold MAX_ARRAY_SIZE at hmax; omega)]
    rw [if_neg (by omega), if_pos hutf]
  · intro buf off s hmax hroom
    refine ⟨(encode_bytes_ok buf off s hroom).1, ?_⟩
    rw [decode_bytes_encode_bytes buf off s hroom
      (by unfold MAX_ARRAY_SIZE at hmax; omega)]
    rw [if_neg (by omega)]

/-- C1 witness: the amended round-trip at concrete values of every
primitive type, in a 16-byte buffer. -/
theorem c1_roundtrip_witness :
    decode_bool (encode_bool (List.replicate 16 0) 3 true).2 3 = .ok true ∧
    decode_u8 (encode_u8 (List.replicate 16 0) 2 0xAB).2 2 = .ok 0xAB ∧
    decode_u16 (encode_u16 (List.replicate 16 0) 1 0xABCD).2 1 = .ok 0xABCD ∧
    decode_u32 (encode_u32 (List.replicate 16 0) 5 0x12345678).2 5 = .ok 0x12345678 ∧
    decode_u64 (encode_u64 (List.replicate 16 0) 7 0x123456789ABCDEF0).2 7
      = .ok 0x123456789ABCDEF0 ∧
    decode_i8 (encode_i8 (List.replicate 16 0) 0 (-128)).2 0 = .ok (-128) ∧
    decode_i16 (encode_i16 (List.replicate 16 0) 0 (-32768)).2 0 = .ok (-32768) ∧
    decode_i32 (encode_i32 (List.replicate 16 0) 0 (-2147483648)).2 0
      = .ok (-2147483648) ∧
    decode_i64 (encode_i64 (List.replicate 16 0) 0 (-9223372036854775808)).2 0
      = .ok (-9223372036854775808) ∧
    decode_f32 (encode_f32 (List.replicate 16 0) 4 0x40490FDB).2 4 = .ok 0x40490FDB ∧
    decode_f64 (encode_f64 (List.replicate 16 0) 8 0x4005BF0A8B145769).2 8
      = .ok 0x4005BF0A8B145769 ∧
    ((encode_string (List.replicate 16 0) 1 [0x48, 0x69]).1 = .ok 6 ∧
      decode_string (encode_string (List.replicate 16 0) 1 [0x48, 0x69]).2 1
        = .ok ([0x48, 0x69], 6)) ∧
    ((encode_bytes (List.replicate 16 0) 0 [1, 2, 3]).1 = .ok 7 ∧
      decode_bytes (encode_bytes (List.replicate 16 0) 0 [1, 2, 3]).2 0
        = .ok ([1, 2, 3], 7)) := by
  obtain ⟨h1, h2, h3, h4, h5, h6, h7, h8, h9, h10, h11, h12, h13⟩ :=
    c1_roundtrip_all_primitives
  exact ⟨h1 _ 3 true (by decide),
    h2 _ 2 0xAB (by decide) (by decide),
    h3 _ 1 0xABCD (by decide) (by decide),
    h4 _ 5 0x12345678 (by decide) (by decide),
    h5 _ 7 0x123456789ABCDEF0 (by decide) (by decide),
    h6 _ 0 (-128) (by decide) (by decide) (by decide),
    h7 _ 0 (-32768) (by decide) (by decide) (by decide),
    h8 _ 0 (-2147483648) (by decide) (by decide) (by decide),
    h9 _ 0 (-9223372036854775808) (by decide) (by decide) (by decide),
    h10 _ 4 0x40490FDB (by decide) (by decide),
    h11 _ 8 0x4005BF0A8B145769 (by decide) (by decide),
    h12 _ 1 [0x48, 0x69] (by decide) (by decide) (by decide),
    h13 _ 0 [1, 2, 3] (by decide) (by decide)⟩

/-- A 10 000 001-byte ASCII string: one byte past `MAX_ARRAY_SIZE`. -/
def bigPayload : List Byte := List.replicate 10000001 97

/-- A buffer exactly large enough to encode `bigPayload`. -/
def bigBuf : List Byte := List.replicate 10000005 0

theorem validUtf8_replicate97 (n : Nat) : validUtf8 (List.replicate n 97) = true := by
  induction n with
  | zero => rfl
  | succ m ih =>
    rw [List.replicate_succ, validUtf8_ascii_cons _ _ (by decide), ih]

/-- C1 counterexample: a valid-UTF-8 string of 10 000 001 bytes encodes
successfully, but decoding the encoded buffer fails with
`ArrayTooLarge` — the round-trip claim is false without a restriction
on the string's length. -/
theorem c1_long_string_counterexample :
    validUtf8 bigPayload = true ∧
    (encode_string bigBuf 0 bigPayload).1 = .ok 10000005 ∧
    decode_string (encode_string bigBuf 0 bigPayload).2 0 =
      .error (.arrayTooLarge 10000001 10000000) := by
  have hlen : bigPayload.length = 10000001 := by
    show (List.replicate 10000001 (97 : Byte)).length = 10000001
    exact List.length_replicate _ _
  have hblen : bigBuf.length = 10000005 := by
    show (List.replicate 10000005 (0 : Byte)).length = 10000005
    exact List.length_replicate _ _
  have hroom : 0 + (4 + bigPayload.length) ≤ bigBuf.length := by
    rw [hlen, hblen]
  refine ⟨validUtf8_replicate97 _, ?_, ?_⟩
  · rw [(encode_string_ok bigBuf 0 bigPayload hroom).1, hlen]
  · rw [decode_string_encode_string bigBuf 0 bigPayload hroom (by rw [hlen]; norm_num)]
    rw [if_pos (by rw [hlen]; norm_num [MAX_ARRAY_SIZE]), hlen]
    rfl

/-! ## C2 / C9: `usize` overflow in the bounds check -/

/-- C2: at `offset = usize::MAX - 3` the mathematical bound
`offset + 4 > buf.len()` holds, so the claim demands
`BufferTooSmall{needed: offset+4, available: 2}` — but the release-mode
check wraps to `0 > 2`, passes, and the slice write panics (`none`); a
debug build panics already in the addition. -/
theorem c2_encode_overflow_panics :
    USIZE - 4 + 4 > (List.replicate 2 (0 : Byte)).length ∧
    encode_u32_mach (List.replicate 2 0) (USIZE - 4) 42 = none := by
  constructor
  · norm_num [USIZE]
  · rfl

/-- C9: `decode_u32` on the empty buffer panics at
`offset = usize::MAX - 3` instead of returning a typed error (the same
offset at which every in-range offset returns `BufferTooSmall`, shown
for contrast at offset `0`). -/
theorem c9_decode_overflow_panics :
    decode_u32_mach [] (USIZE - 4) = none ∧
    decode_u32_mach [] 0 = some (.error (.bufferTooSmall 4 0)) := by
  exact ⟨rfl, rfl⟩

/-! ## C3: length-prefix DoS guard -/

/-- C3: whenever the `u32` length prefix read by a length-prefixed
decoder exceeds `MAX_ARRAY_SIZE`, the decoder fails with
`ArrayTooLarge{size, max}` — in both the slice and the streaming API,
and regardless of whether any payload follows (no payload-range check,
no payload allocation: the bounds check and payload read are never
reached). -/
theorem c3_dos_guard :
    (∀ (buf : List Byte) (off len : Nat), decode_u32 buf off = .ok len →
      len > MAX_ARRAY_SIZE →
      decode_string buf off = .error (.arrayTooLarge len MAX_ARRAY_SIZE) ∧
      decode_bytes buf off = .error (.arrayTooLarge len MAX_ARRAY_SIZE)) ∧
    (∀ (input : List Byte) (len : Nat) (rest : List Byte),
      read_u32 input = .ok (len, rest) → len > MAX_ARRAY_SIZE →
      read_string input = .error (.arrayTooLarge len MAX_ARRAY_SIZE) ∧
      read_bytes input = .error (.arrayTooLarge len MAX_ARRAY_SIZE)) := by
  constructor
  · intro buf off len hdec hmax
    constructor
    · unfold decode_string
      rw [hdec]
      dsimp only
      rw [if_pos hmax]
    · unfold decode_bytes
      rw [hdec]
      dsimp only
      rw [if_pos hmax]
  · intro input len rest hread hmax
    constructor
    · unfold read_string
      rw [hread]
      dsimp only
      rw [if_pos hmax]
    · unfold read_bytes
      rw [hread]
      dsimp only
      rw [if_pos hmax]

/-- C3 witness: the prefix `0xFFFFFFFF` with no payload at all yields
`ArrayTooLarge`, not `BufferTooSmall`, in all four decoders. -/
theorem c3_dos_guard_witness :
    decode_string [0xFF, 0xFF, 0xFF, 0xFF] 0
      = .error (.arrayTooLarge 4294967295 10000000) ∧
    decode_bytes [0xFF, 0xFF, 0xFF, 0xFF] 0
      = .error (.arrayTooLarge 4294967295 10000000) ∧
    read_string [0xFF, 0xFF, 0xFF, 0xFF]
      = .error (.arrayTooLarge 4294967295 10000000) ∧
    read_bytes [0xFF, 0xFF, 0xFF, 0xFF]
      = .error (.arrayTooLarge 4294967295 10000000) := by
  obtain ⟨hs, hb⟩ := c3_dos_guard.1 [0xFF, 0xFF, 0xFF, 0xFF] 0 4294967295
    (by rfl) (by decide)
  obtain ⟨hs2, hb2⟩ := c3_dos_guard.2 [0xFF, 0xFF, 0xFF, 0xFF] 4294967295 []
    (by rfl) (by decide)
  exact ⟨hs, hb, hs2, hb2⟩

/-! ## C5: little-endian layout -/

/-- C5: every fixed-width encoder writes the little-endian image of the
value: byte `k` of the written region is bits `8k..8k+7`; signed and
float encoders delegate to the unsigned encoder on the two's-complement
/ IEEE-754 bit pattern; and `encode_u32 0x12345678` produces exactly
`[0x78, 0x56, 0x34, 0x12]` in both APIs. -/
theorem c5_little_endian :
    (∀ (w : Nat) (buf : List Byte) (off v : Nat), off + w ≤ buf.length →
      readBytes (encodeFixed w buf off v).2 off w = leBytes w v) ∧
    (∀ (w : Nat) (out : List Byte) (v : Nat), writeFixed w out v = out ++ leBytes w v) ∧
    (∀ w v k, k < w → (getByte (leBytes w v) k).val = v / 256 ^ k % 256) ∧
    (∀ (buf : List Byte) (off : Nat) (v : Int),
      encode_i8 buf off v = encode_u8 buf off (toTwos (2 ^ 8) v) ∧
      encode_i16 buf off v = encode_u16 buf off (toTwos (2 ^ 16) v) ∧
      encode_i32 buf off v = encode_u32 buf off (toTwos (2 ^ 32) v) ∧
      encode_i64 buf off v = encode_u64 buf off (toTwos (2 ^ 64) v)) ∧
    (∀ (buf : List Byte) (off bits : Nat),
      encode_f32 buf off bits = encode_u32 buf off bits ∧
      encode_f64 buf off bits = encode_u64 buf off bits) ∧
    (encode_u32 (List.replicate 4 0) 0 0x12345678).2 = [0x78, 0x56, 0x34, 0x12] ∧
    write_u32 [] 0x12345678 = [0x78, 0x56, 0x34, 0x12] := by
  refine ⟨?_, fun w out v => rfl, getByte_leBytes,
    fun buf off v => ⟨rfl, rfl, rfl, rfl⟩, fun buf off bits => ⟨rfl, rfl⟩, by rfl, by rfl⟩
  intro w buf off v h
  unfold encodeFixed
  rw [if_neg (by omega)]
  exact readBytes_writeBytes_w buf off w v h

/-- C5 witness: the layout law at concrete inputs (byte 2 of the `u32`
image of `0x12345678` is `0x34`, etc.). -/
theorem c5_little_endian_witness :
    readBytes (encodeFixed 4 (List.replicate 4 0) 0 0x12345678).2 0 4
      = leBytes 4 0x12345678 ∧
    writeFixed 2 [] 0xABCD = [] ++ leBytes 2 0xABCD ∧
    (getByte (leBytes 4 0x12345678) 2).val = 0x12345678 / 256 ^ 2 % 256 := by
  obtain ⟨h1, h2, h3, -, -, -, -⟩ := c5_little_endian
  exact ⟨h1 4 (List.replicate 4 0) 0 0x12345678 (by decide), h2 2 [] 0xABCD,
    h3 4 0x12345678 2 (by decide)⟩

/-! ## C6: boolean decoding -/

/-- C6: at an in-bounds offset, `decode_bool` maps byte `0` to `false`,
byte `1` to `true`, and every byte `2..=255` to `InvalidBool(v)`; the
streaming `read_bool` acts identically on its next input byte. -/
theorem c6_decode_bool :
    (∀ (buf : List Byte) (off : Nat), off < buf.length →
      ((getByte buf off).val = 0 → decode_bool buf off = .ok false) ∧
      ((getByte buf off).val = 1 → decode_bool buf off = .ok true) ∧
      (2 ≤ (getByte buf off).val →
        decode_bool buf off = .error (.invalidBool (getByte buf off)))) ∧
    (∀ (b : Byte) (rest : List Byte),
      (b.val = 0 → read_bool (b :: rest) = .ok (false, rest)) ∧
      (b.val = 1 → read_bool (b :: rest) = .ok (true, rest)) ∧
      (2 ≤ b.val → read_bool (b :: rest) = .error (.invalidBool b))) := by
  constructor
  · intro buf off hoff
    unfold decode_bool
    rw [if_neg (by omega)]
    refine ⟨fun h0 => by rw [if_pos h0], fun h1 => ?_, fun h2 => ?_⟩
    · rw [if_neg (by omega), if_pos h1]
    · rw [if_neg (by omega), if_neg (by omega)]
  · intro b rest
    unfold read_bool
    dsimp only
    refine ⟨fun h0 => by rw [if_pos h0], fun h1 => ?_, fun h2 => ?_⟩
    · rw [if_neg (by omega), if_pos h1]
    · rw [if_neg (by omega), if_neg (by omega)]

/-- C6 witness: bytes `0`, `1` and `2` in both APIs. -/
theorem c6_decode_bool_witness :
    decode_bool [0] 0 = .ok false ∧
    decode_bool [1] 0 = .ok true ∧
    decode_bool [2] 0 = .error (.invalidBool 2) ∧
    read_bool [0] = .ok (false, []) ∧
    read_bool [1] = .ok (true, []) ∧
    read_bool [2] = .error (.invalidBool 2) := by
  obtain ⟨hs, hr⟩ := c6_decode_bool
  exact ⟨(hs [0] 0 (by decide)).1 (by decide),
    (hs [1] 0 (by decide)).2.1 (by decide),
    (hs [2] 0 (by decide)).2.2 (by decide),
    (hr 0 []).1 (by decide), (hr 1 []).2.1 (by decide), (hr 2 []).2.2 (by decide)⟩

/-! ## C10: decoder results depend only on the consumed byte range -/

/-- C10: two buffers that agree on the consumed range (and are long
enough for it) decode identically — bytes before the offset or past the
consumed range never influence the result.  Fixed-width decoders consume
`w` bytes, `decode_bool` one, length-prefixed decoders `4 + len`. -/
theorem c10_locality :
    (∀ (w : Nat) (b1 b2 : List Byte) (off : Nat),
      off + w ≤ b1.length → off + w ≤ b2.length →
      readBytes b1 off w = readBytes b2 off w →
      decodeFixed w b1 off = decodeFixed w b2 off) ∧
    (∀ (b1 b2 : List Byte) (off : Nat), off < b1.length → off < b2.length →
      getByte b1 off = getByte b2 off →
      decode_bool b1 off = decode_bool b2 off) ∧
    (∀ (b1 b2 : List Byte) (off n : Nat),
      decode_u32 b1 off = .ok n →
      off + (4 + n) ≤ b1.length → off + (4 + n) ≤ b2.length →
      readBytes b1 off (4 + n) = readBytes b2 off (4 + n) →
      decode_string b1 off = decode_string b2 off ∧
      decode_bytes b1 off = decode_bytes b2 off) := by
  refine ⟨?_, ?_, ?_⟩
  · intro w b1 b2 off h1 h2 hr
    unfold decodeFixed
    rw [if_neg (by omega), if_neg (by omega), hr]
  · intro b1 b2 off h1 h2 hg
    unfold decode_bool
    have hn1 : ¬(off ≥ b1.length) := by omega
    have hn2 : ¬(off ≥ b2.length) := by omega
    rw [if_neg hn1, if_neg hn2]
    dsimp only
    rw [hg]
  · intro b1 b2 off n hdec h1 h2 hr
    have hval : leVal (readBytes b1 off 4) = n := by
      unfold decode_u32 decodeFixed at hdec
      rw [if_neg (by omega)] at hdec
      exact Except.ok.inj hdec
    have h4 : readBytes b1 off 4 = readBytes b2 off 4 := by
      rw [← readBytes_take b1 off 4 (4 + n) (by omega),
        ← readBytes_take b2 off 4 (4 + n) (by omega), hr]
    have hpay : readBytes b1 (off + 4) n = readBytes b2 (off + 4) n := by
      have d1 := readBytes_drop b1 off 4 (4 + n) (by omega)
      have d2 := readBytes_drop b2 off 4 (4 + n) (by omega)
      rw [show 4 + n - 4 = n from by omega] at d1 d2
      rw [← d1, ← d2, hr]
    have hdec2 : decode_u32 b2 off = .ok n := by
      unfold decode_u32 decodeFixed
      rw [if_neg (by omega), ← h4, hval]
    have hb1 : ¬(off + (4 + n) > b1.length) := by omega
    have hb2 : ¬(off + (4 + n) > b2.length) := by omega
    constructor
    · unfold decode_string
      rw [hdec, hdec2]
      dsimp only
      by_cases hmax : n > MAX_ARRAY_SIZE
      · rw [if_pos hmax, if_pos hmax]
      · rw [if_neg hmax, if_neg hmax, if_neg hb1, if_neg hb2, hpay]
    · unfold decode_bytes
      rw [hdec, hdec2]
      dsimp only
      by_cases hmax : n > MAX_ARRAY_SIZE
      · rw [if_pos hmax, if_pos hmax]
      · rw [if_neg hmax, if_neg hmax, if_neg hb1, if_neg hb2, hpay]

/-- C10 witness: buffers differing only outside the consumed range
decode identically, for a `u32`, a `bool` and a 1-byte string/bytes
payload. -/
theorem c10_locality_witness :
    decodeFixed 4 [0xAA, 1, 2, 3, 4] 1 = decodeFixed 4 [0xBB, 1, 2, 3, 4] 1 ∧
    decode_bool [0, 7] 0 = decode_bool [0, 9] 0 ∧
    decode_string [1, 0, 0, 0, 65, 99] 0 = decode_string [1, 0, 0, 0, 65, 77] 0 ∧
    decode_bytes [1, 0, 0, 0, 65, 99] 0 = decode_bytes [1, 0, 0, 0, 65, 77] 0 := by
  obtain ⟨hf, hb, hs⟩ := c10_locality
  have h := hs [1, 0, 0, 0, 65, 99] [1, 0, 0, 0, 65, 77] 0 1
    (by rfl) (by decide) (by decide) (by decide)
  exact ⟨hf 4 [0xAA, 1, 2, 3, 4] [0xBB, 1, 2, 3, 4] 1 (by decide) (by decide) (by decide),
    hb [0, 7] [0, 9] 0 (by decide) (by decide) (by decide), h.1, h.2⟩

/-! ## C7: UTF-8 validation in `decode_string`

The two cited `decode_string` implementations agree on every result but
differ in *when* the payload is copied into owned storage:

* `src/rust/sdp/src/wire_slice.rs` runs
  `String::from_utf8(bytes.to_vec())` — `to_vec` copies the whole
  borrowed payload into an owned buffer first, and validation runs on
  the owned copy (so the copy is made even when validation then fails);
* the generated `src/testdata/generated/rustexp/audiounit/src/wire_slice.rs`
  runs `std::str::from_utf8(bytes)?.to_string()` — it validates the
  borrowed range in place and copies only after validation succeeds.

To make that order observable, each implementation is instrumented with
the number of payload bytes it copies into owned storage. -/

/-- Helper: given the length prefix passes the `MAX_ARRAY_SIZE` check
and the full range `offset .. offset+4+len` is within the buffer,
`decode_string` fails with `InvalidUtf8` exactly when the payload bytes
are not valid UTF-8. -/
theorem decode_string_invalid_utf8_iff (buf : List Byte) (off n : Nat)
    (hdec : decode_u32 buf off = .ok n) (hmax : n ≤ MAX_ARRAY_SIZE)
    (hroom : off + (4 + n) ≤ buf.length) :
    decode_string buf off = .error .invalidUtf8 ↔
      validUtf8 (readBytes buf (off + 4) n) = false := by
  unfold decode_string
  rw [hdec]
  dsimp only
  rw [if_neg (by omega), if_neg (by omega)]
  by_cases hv : validUtf8 (readBytes buf (off + 4) n)
  · rw [if_pos hv]
    simp [hv]
  · rw [if_neg hv]
    simp [hv]

/-- `decode_string` of `src/rust/sdp/src/wire_slice.rs`, instrumented
with the payload bytes copied into owned storage.  The source copies
with `bytes.to_vec()` *before* `String::from_utf8` validates the owned
copy, so on the `InvalidUtf8` path the copy has already been made. -/
def decode_string_sdp_alloc (buf : List Byte) (offset : Nat) :
    Except SliceError (List Byte × Nat) × Nat :=
  match decode_u32 buf offset with
  | .error e => (.error e, 0)
  | .ok len =>
    if len > MAX_ARRAY_SIZE then (.error (.arrayTooLarge len MAX_ARRAY_SIZE), 0)
    else
      let total := 4 + len
      if offset + total > buf.length then
        (.error (.bufferTooSmall (offset + total) buf.length), 0)
      else
        let bytes := readBytes buf (offset + 4) len
        let owned := bytes
        if validUtf8 owned then (.ok (owned, total), owned.length)
        else (.error .invalidUtf8, owned.length)

/-- `decode_string` of the generated
`src/testdata/generated/rustexp/audiounit/src/wire_slice.rs`,
instrumented the same way.  The source validates the borrowed range
with `std::str::from_utf8(bytes)?` and copies with `.to_string()` only
after validation succeeds, so the `InvalidUtf8` path copies nothing. -/
def decode_string_exp_alloc (buf : List Byte) (offset : Nat) :
    Except SliceError (List Byte × Nat) × Nat :=
  match decode_u32 buf offset with
  | .error e => (.error e, 0)
  | .ok len =>
    if len > MAX_ARRAY_SIZE then (.error (.arrayTooLarge len MAX_ARRAY_SIZE), 0)
    else
      let total := 4 + len
      if offset + total > buf.length then
        (.error (.bufferTooSmall (offset + total) buf.length), 0)
      else
        let bytes := readBytes buf (offset + 4) len
        if validUtf8 bytes then (.ok (bytes, total), bytes.length)
        else (.error .invalidUtf8, 0)

/-- Both instrumented implementations return exactly the results of
`decode_string`. -/
theorem decode_string_alloc_fst (buf : List Byte) (off : Nat) :
    (decode_string_sdp_alloc buf off).1 = decode_string buf off ∧
    (decode_string_exp_alloc buf off).1 = decode_string buf off := by
  unfold decode_string_sdp_alloc decode_string_exp_alloc decode_string
  cases hd : decode_u32 buf off with
  | error e => exact ⟨rfl, rfl⟩
  | ok len =>
    dsimp only
    constructor <;> split_ifs <;> rfl

/-- C7 counterexample: on the 1-byte payload `[0xFF]` (invalid UTF-8)
the sdp implementation copies the payload into an owned buffer and only
then fails validation — it does not validate the borrowed byte range
before copying; a validate-first implementation (the generated codec,
shown for contrast) copies nothing on this input. -/
theorem c7_copy_before_validate_counterexample :
    decode_string_sdp_alloc [1, 0, 0, 0, 0xFF] 0 = (.error .invalidUtf8, 1) ∧
    decode_string_exp_alloc [1, 0, 0, 0, 0xFF] 0 = (.error .invalidUtf8, 0) := by
  exact ⟨rfl, rfl⟩

/-- C7, amended: `decode_string` fails with `InvalidUtf8` iff the
length-prefixed payload bytes are not valid UTF-8 (given the prefix
passes the `MAX_ARRAY_SIZE` check and the full range is in bounds); the
two cited implementations return identical results, but only the
generated one validates the borrowed payload range before copying it
into an owned string — the sdp core implementation copies first and
validates the owned copy, copying the full payload even when validation
then fails. -/
theorem c7_utf8_validation_amended :
    (∀ (buf : List Byte) (off n : Nat), decode_u32 buf off = .ok n →
      n ≤ MAX_ARRAY_SIZE → off + (4 + n) ≤ buf.length →
      (decode_string buf off = .error .invalidUtf8 ↔
        validUtf8 (readBytes buf (off + 4) n) = false)) ∧
    (∀ (buf : List Byte) (off : Nat),
      (decode_string_sdp_alloc buf off).1 = decode_string buf off ∧
      (decode_string_exp_alloc buf off).1 = decode_string buf off) ∧
    (∀ (buf : List Byte) (off n : Nat), decode_u32 buf off = .ok n →
      n ≤ MAX_ARRAY_SIZE → off + (4 + n) ≤ buf.length →
      (decode_string_sdp_alloc buf off).2 = n ∧
      (decode_string_exp_alloc buf off).2 =
        (if validUtf8 (readBytes buf (off + 4) n) then n else 0)) := by
  refine ⟨decode_string_invalid_utf8_iff, decode_string_alloc_fst, ?_⟩
  intro buf off n hdec hmax hroom
  unfold decode_string_sdp_alloc decode_string_exp_alloc
  rw [hdec]
  dsimp only
  have hm : ¬(n > MAX_ARRAY_SIZE) := by omega
  have hb : ¬(off + (4 + n) > buf.length) := by omega
  rw [if_neg hm, if_neg hm, if_neg hb, if_neg hb]
  constructor
  · by_cases hv : validUtf8 (readBytes buf (off + 4) n)
    · rw [if_pos hv]
      exact length_readBytes buf (off + 4) n
    · rw [if_neg hv]
      exact length_readBytes buf (off + 4) n
  · by_cases hv : validUtf8 (readBytes buf (off + 4) n)
    · rw [if_pos hv, if_pos hv]
      exact length_readBytes buf (off + 4) n
    · rw [if_neg hv, if_neg hv]

/-- C7 witness: the amended statement at the concrete input
`[1, 0, 0, 0, 0xFF]` — invalid payload, so the iff yields
`InvalidUtf8`, the sdp copy count is `1`, the generated copy count
`0`. -/
theorem c7_utf8_validation_amended_witness :
    (decode_string [1, 0, 0, 0, 0xFF] 0 = .error .invalidUtf8 ↔
      validUtf8 (readBytes [1, 0, 0, 0, 0xFF] (0 + 4) 1) = false) ∧
    (decode_string_sdp_alloc [1, 0, 0, 0, 0xFF] 0).1
      = decode_string [1, 0, 0, 0, 0xFF] 0 ∧
    (decode_string_exp_alloc [1, 0, 0, 0, 0xFF] 0).1
      = decode_string [1, 0, 0, 0, 0xFF] 0 ∧
    (decode_string_sdp_alloc [1, 0, 0, 0, 0xFF] 0).2 = 1 ∧
    (decode_string_exp_alloc [1, 0, 0, 0, 0xFF] 0).2
      = (if validUtf8 (readBytes [1, 0, 0, 0, 0xFF] (0 + 4) 1) then 1 else 0) := by
  obtain ⟨h1, h2, h3⟩ := c7_utf8_validation_amended
  have hiff := h1 [1, 0, 0, 0, 0xFF] 0 1 (by rfl) (by decide) (by decide)
  have hagree := h2 [1, 0, 0, 0, 0xFF] 0
  have hcnt := h3 [1, 0, 0, 0, 0xFF] 0 1 (by rfl) (by decide) (by decide)
  exact ⟨hiff, hagree.1, hagree.2, hcnt.1, hcnt.2⟩

/-! ## C8: the three fast-path strategies agree -/

theorem elemwiseU32s_nil : elemwiseU32s [] 0 = [] := rfl

theorem castU32s_eq_elemwise (count : Nat) :
    ∀ bytes : List Byte, bytes.length = 4 * count →
      castU32s bytes = elemwiseU32s bytes count := by
  induction count with
  | zero =>
    intro bytes h
    have hnil : bytes = [] := List.eq_nil_of_length_eq_zero (by omega)
    subst hnil
    rfl
  | succ m ih =>
    intro bytes h
    cases bytes with
    | nil => simp at h
    | cons b0 t0 =>
    cases t0 with
    | nil => simp at h; omega
    | cons b1 t1 =>
    cases t1 with
    | nil => simp at h; omega
    | cons b2 t2 =>
    cases t2 with
    | nil => simp at h; omega
    | cons b3 rest =>
    have hr : rest.length = 4 * m := by simp at h; omega
    show leVal [b0, b1, b2, b3] :: castU32s rest
      = elemwiseU32s (b0 :: b1 :: b2 :: b3 :: rest) (m + 1)
    unfold elemwiseU32s
    rw [List.range_succ_eq_map, List.map_cons, List.map_map]
    congr 1
    rw [ih rest hr]
    unfold elemwiseU32s
    apply List.map_congr_left
    intro i hi
    show leVal (readBytes (b0 :: b1 :: b2 :: b3 :: rest) (4 * (i + 1)) 4)
      = leVal (readBytes rest (4 * i) 4)
    congr 1

theorem castF64s_eq_elemwise (count : Nat) :
    ∀ bytes : List Byte, bytes.length = 8 * count →
      castF64s bytes = elemwiseF64s bytes count := by
  induction count with
  | zero =>
    intro bytes h
    have hnil : bytes = [] := List.eq_nil_of_length_eq_zero (by omega)
    subst hnil
    rfl
  | succ m ih =>
    intro bytes h
    cases bytes with
    | nil => simp at h
    | cons b0 t0 =>
    cases t0 with
    | nil => simp at h; omega
    | cons b1 t1 =>
    cases t1 with
    | nil => simp at h; omega
    | cons b2 t2 =>
    cases t2 with
    | nil => simp at h; omega
    | cons b3 t3 =>
    cases t3 with
    | nil => simp at h; omega
    | cons b4 t4 =>
    cases t4 with
    | nil => simp at h; omega
    | cons b5 t5 =>
    cases t5 with
    | nil => simp at h; omega
    | cons b6 t6 =>
    cases t6 with
    | nil => simp at h; omega
    | cons b7 rest =>
    have hr : rest.length = 8 * m := by simp at h; omega
    show leVal [b0, b1, b2, b3, b4, b5, b6, b7] :: castF64s rest
      = elemwiseF64s (b0 :: b1 :: b2 :: b3 :: b4 :: b5 :: b6 :: b7 :: rest) (m + 1)
    unfold elemwiseF64s
    rw [List.range_succ_eq_map, List.map_cons, List.map_map]
    congr 1
    rw [ih rest hr]
    unfold elemwiseF64s
    apply List.map_congr_left
    intro i hi
    show leVal (readBytes (b0 :: b1 :: b2 :: b3 :: b4 :: b5 :: b6 :: b7 :: rest)
        (8 * (i + 1)) 8) = leVal (readBytes rest (8 * i) 8)
    congr 1

/-- C8: on input of exactly `count * width` bytes, the fast-path array
decoder returns `Ok` of the same vector — element `i` being the
little-endian interpretation of byte group `i` — independent of the
alignment flag and thresholds that select among the zero-copy cast,
bulk-memcpy and element-wise strategies; no strategy can error. -/
theorem c8_fast_path_equivalence :
    (∀ (bytes : List Byte) (count : Nat) (a1 a2 : Bool),
      bytes.length = 4 * count →
      decode_u32_array_fast bytes count a1 = .ok (elemwiseU32s bytes count) ∧
      decode_u32_array_fast bytes count a1 = decode_u32_array_fast bytes count a2) ∧
    (∀ (bytes : List Byte) (count : Nat) (a1 a2 : Bool),
      bytes.length = 8 * count →
      decode_f64_array_fast bytes count a1 = .ok (elemwiseF64s bytes count) ∧
      decode_f64_array_fast bytes count a1 = decode_f64_array_fast bytes count a2) := by
  have hu : ∀ (bytes : List Byte) (count : Nat) (a : Bool),
      bytes.length = 4 * count →
      decode_u32_array_fast bytes count a = .ok (elemwiseU32s bytes count) := by
    intro bytes count a h
    unfold decode_u32_array_fast
    by_cases hc : a && bytes.length % 4 == 0
    · rw [if_pos hc, castU32s_eq_elemwise count bytes h]
    · rw [if_neg hc]
      by_cases hm : count ≥ 64
      · rw [if_pos hm]
        unfold memcpyU32s
        rw [show bytes.take (4 * count) = bytes from
            List.take_of_length_le (by omega),
          castU32s_eq_elemwise count bytes h]
      · rw [if_neg hm]
  have hf : ∀ (bytes : List Byte) (count : Nat) (a : Bool),
      bytes.length = 8 * count →
      decode_f64_array_fast bytes count a = .ok (elemwiseF64s bytes count) := by
    intro bytes count a h
    unfold decode_f64_array_fast
    by_cases hc : a && bytes.length % 8 == 0
    · rw [if_pos hc, castF64s_eq_elemwise count bytes h]
    · rw [if_neg hc]
      by_cases hm : count ≥ 32
      · rw [if_pos hm]
        unfold memcpyF64s
        rw [show bytes.take (8 * count) = bytes from
            List.take_of_length_le (by omega),
          castF64s_eq_elemwise count bytes h]
      · rw [if_neg hm]
  exact ⟨fun bytes count a1 a2 h =>
      ⟨hu bytes count a1 h, by rw [hu bytes count a1 h, hu bytes count a2 h]⟩,
    fun bytes count a1 a2 h =>
      ⟨hf bytes count a1 h, by rw [hf bytes count a1 h, hf bytes count a2 h]⟩⟩

/-- C8 witness: a misaligned-vs-aligned pair on the bytes of
`[100, 200]` (`u32`) and one `f64` group, concretely equal. -/
theorem c8_fast_path_witness :
    decode_u32_array_fast [100, 0, 0, 0, 200, 0, 0, 0] 2 true
      = .ok (elemwiseU32s [100, 0, 0, 0, 200, 0, 0, 0] 2) ∧
    decode_u32_array_fast [100, 0, 0, 0, 200, 0, 0, 0] 2 true
      = decode_u32_array_fast [100, 0, 0, 0, 200, 0, 0, 0] 2 false ∧
    decode_f64_array_fast [0, 0, 0, 0, 0, 0, 0xF0, 0x3F] 1 true
      = .ok (elemwiseF64s [0, 0, 0, 0, 0, 0, 0xF0, 0x3F] 1) ∧
    decode_f64_array_fast [0, 0, 0, 0, 0, 0, 0xF0, 0x3F] 1 true
      = decode_f64_array_fast [0, 0, 0, 0, 0, 0, 0xF0, 0x3F] 1 false := by
  obtain ⟨hu, hf⟩ := c8_fast_path_equivalence
  obtain ⟨h1, h2⟩ := hu [100, 0, 0, 0, 200, 0, 0, 0] 2 true false (by decide)
  obtain ⟨h3, h4⟩ := hf [0, 0, 0, 0, 0, 0, 0xF0, 0x3F] 1 true false (by decide)
  exact ⟨h1, h2, h3, h4⟩

/-! ## C4: streaming codec vs slice codec -/

/-- A contiguous read splits at any interior point. -/
theorem readBytes_split (buf : List Byte) (off a b : Nat) :
    readBytes buf off (a + b) = readBytes buf off a ++ readBytes buf (off + a) b := by
  induction a generalizing off with
  | zero => simp [readBytes]
  | succ m ih =>
    have hsum : m + 1 + b = (m + b) + 1 := by omega
    rw [hsum]
    show getByte buf off :: readBytes buf (off + 1) (m + b)
      = (getByte buf off :: readBytes buf (off + 1) m) ++ readBytes buf (off + (m + 1)) b
    rw [List.cons_append, ih (off + 1), show off + 1 + m = off + (m + 1) from by omega]

/-- The name of the source enum variant of a slice-API error. -/
def sliceErrName : SliceError → String
  | .bufferTooSmall _ _ => "BufferTooSmall"
  | .invalidUtf8 => "InvalidUtf8"
  | .arrayTooLarge _ _ => "ArrayTooLarge"
  | .invalidBool _ => "InvalidBool"

/-- The name of the source enum variant of a streaming-API error. -/
def wireErrName : WireError → String
  | .ioError _ => "Io"
  | .invalidUtf8 => "InvalidUtf8"
  | .arrayTooLarge _ _ => "ArrayTooLarge"
  | .unexpectedEof => "UnexpectedEof"
  | .invalidBool _ => "InvalidBool"

/-- Semantic correspondence of failures across the two APIs: identical
kind and payload, except that insufficient input surfaces as
`BufferTooSmall` in the slice API and `Io(UnexpectedEof)` in the
streaming API. -/
def errMatches : SliceError → WireError → Bool
  | .bufferTooSmall _ _, .ioError .unexpectedEof => true
  | .invalidUtf8, .invalidUtf8 => true
  | .arrayTooLarge s m, .arrayTooLarge t n => s == t && m == n
  | .invalidBool v, .invalidBool u => v == u
  | _, _ => false

/-- Correspondence of fixed-width decode results. -/
def valCorr : Except SliceError Nat → Except WireError (Nat × List Byte) → Prop
  | .ok v, .ok (u, _) => v = u
  | .error e, .error f => errMatches e f = true
  | _, _ => False

/-- Correspondence of boolean decode results. -/
def boolCorr : Except SliceError Bool → Except WireError (Bool × List Byte) → Prop
  | .ok v, .ok (u, _) => v = u
  | .error e, .error f => errMatches e f = true
  | _, _ => False

/-- Correspondence of length-prefixed decode results. -/
def payloadCorr : Except SliceError (List Byte × Nat) →
    Except WireError (List Byte × List Byte) → Prop
  | .ok (s, _), .ok (t, _) => s = t
  | .error e, .error f => errMatches e f = true
  | _, _ => False

/-- C4 counterexample: on the same 1-byte input, insufficient bytes
surface as `BufferTooSmall` in the slice API but as `Io(UnexpectedEof)`
in the streaming API — the two APIs do not share one error kind for this
failure (the streaming enum has no `BufferTooSmall` variant at all). -/
theorem c4_error_kind_counterexample :
    read_u32 [0] = .error (.ioError .unexpectedEof) ∧
    decode_u32 [0] 0 = .error (.bufferTooSmall 4 1) ∧
    wireErrName (.ioError .unexpectedEof) = "Io" ∧
    sliceErrName (.bufferTooSmall 4 1) = "BufferTooSmall" ∧
    wireErrName (.ioError .unexpectedEof) ≠ sliceErrName (.bufferTooSmall 4 1) := by
  exact ⟨rfl, rfl, rfl, rfl, by decide⟩

theorem valCorr_fixed (w : Nat) (input : List Byte) :
    valCorr (decodeFixed w input 0) (readFixed w input) := by
  by_cases h : input.length < w
  · have h1 : decodeFixed w input 0 = .error (.bufferTooSmall (0 + w) input.length) := by
      unfold decodeFixed
      rw [if_pos (by omega)]
    have h2 : readFixed w input = .error (.ioError .unexpectedEof) := by
      unfold readFixed readExact
      rw [if_pos h]
    rw [h1, h2]
    exact rfl
  · have h1 : decodeFixed w input 0 = .ok (leVal (readBytes input 0 w)) := by
      unfold decodeFixed
      rw [if_neg (by omega)]
    have h2 : readFixed w input = .ok (leVal (input.take w), input.drop w) := by
      unfold readFixed readExact
      rw [if_neg h]
    rw [h1, h2]
    show leVal (readBytes input 0 w) = leVal (input.take w)
    rw [readBytes_eq_drop_take input 0 w (by omega), List.drop_zero]

theorem boolCorr_bool (input : List Byte) :
    boolCorr (decode_bool input 0) (read_bool input) := by
  cases input with
  | nil => exact rfl
  | cons b rest =>
    unfold decode_bool read_bool
    rw [if_neg (by simp)]
    dsimp only
    rw [getByte_cons_zero]
    by_cases h0 : b.val = 0
    · rw [if_pos h0, if_pos h0]
      exact rfl
    · rw [if_neg h0, if_neg h0]
      by_cases h1 : b.val = 1
      · rw [if_pos h1, if_pos h1]
        exact rfl
      · rw [if_neg h1, if_neg h1]
        show errMatches (.invalidBool b) (.invalidBool b) = true
        simp [errMatches]

theorem payloadCorr_string (input : List Byte) :
    payloadCorr (decode_string input 0) (read_string input) := by
  by_cases h4 : input.length < 4
  · have h1 : decode_string input 0 = .error (.bufferTooSmall (0 + 4) input.length) := by
      unfold decode_string decode_u32 decodeFixed
      rw [if_pos (by omega)]
    have h2 : read_string input = .error (.ioError .unexpectedEof) := by
      unfold read_string read_u32 readFixed readExact
      rw [if_pos h4]
    rw [h1, h2]
    exact rfl
  · have hdec : decode_u32 input 0 = .ok (leVal (readBytes input 0 4)) := by
      unfold decode_u32 decodeFixed
      rw [if_neg (by omega)]
    have htake : readBytes input 0 4 = input.take 4 := by
      rw [readBytes_eq_drop_take input 0 4 (by omega), List.drop_zero]
    have hread : read_u32 input = .ok (leVal (readBytes input 0 4), input.drop 4) := by
      unfold read_u32 readFixed readExact
      rw [if_neg (by omega), htake]
    set n := leVal (readBytes input 0 4) with hn
    unfold decode_string read_string
    rw [hdec, hread]
    dsimp only
    by_cases hmax : n > MAX_ARRAY_SIZE
    · rw [if_pos hmax, if_pos hmax]
      show errMatches (.arrayTooLarge n MAX_ARRAY_SIZE) (.arrayTooLarge n MAX_ARRAY_SIZE)
        = true
      simp [errMatches]
    · rw [if_neg hmax, if_neg hmax]
      by_cases hroom : input.length < 4 + n
      · rw [if_pos (by omega : 0 + (4 + n) > input.length)]
        have hs2 : readExact (input.drop 4) n = .error (.ioError .unexpectedEof) := by
          unfold readExact
          rw [if_pos (by simp [List.length_drop]; omega)]
        rw [hs2]
        exact rfl
      · rw [if_neg (by omega : ¬(0 + (4 + n) > input.length))]
        have hs2 : readExact (input.drop 4) n
            = .ok ((input.drop 4).take n, (input.drop 4).drop n) := by
          unfold readExact
          rw [if_neg (by simp [List.length_drop]; omega)]
        rw [hs2]
        dsimp only
        have hp : readBytes input (0 + 4) n = (input.drop 4).take n := by
          rw [readBytes_eq_drop_take input (0 + 4) n (by omega)]
        rw [hp]
        by_cases hv : validUtf8 ((input.drop 4).take n)
        · rw [if_pos hv, if_pos hv]
          exact rfl
        · rw [if_neg hv, if_neg hv]
          exact rfl

theorem payloadCorr_bytes (input : List Byte) :
    payloadCorr (decode_bytes input 0) (read_bytes input) := by
  by_cases h4 : input.length < 4
  · have h1 : decode_bytes input 0 = .error (.bufferTooSmall (0 + 4) input.length) := by
      unfold decode_bytes decode_u32 decodeFixed
      rw [if_pos (by omega)]
    have h2 : read_bytes input = .error (.ioError .unexpectedEof) := by
      unfold read_bytes read_u32 readFixed readExact
      rw [if_pos h4]
    rw [h1, h2]
    exact rfl
  · have hdec : decode_u32 input 0 = .ok (leVal (readBytes input 0 4)) := by
      unfold decode_u32 decodeFixed
      rw [if_neg (by omega)]
    have htake : readBytes input 0 4 = input.take 4 := by
      rw [readBytes_eq_drop_take input 0 4 (by omega), List.drop_zero]
    have hread : read_u32 input = .ok (leVal (readBytes input 0 4), input.drop 4) := by
      unfold read_u32 readFixed readExact
      rw [if_neg (by omega), htake]
    set n := leVal (readBytes input 0 4) with hn
    unfold decode_bytes read_bytes
    rw [hdec, hread]
    dsimp only
    by_cases hmax : n > MAX_ARRAY_SIZE
    · rw [if_pos hmax, if_pos hmax]
      show errMatches (.arrayTooLarge n MAX_ARRAY_SIZE) (.arrayTooLarge n MAX_ARRAY_SIZE)
        = true
      simp [errMatches]
    · rw [if_neg hmax, if_neg hmax]
      by_cases hroom : input.length < 4 + n
      · rw [if_pos (by omega : 0 + (4 + n) > input.length)]
        have hs2 : readExact (input.drop 4) n = .error (.ioError .unexpectedEof) := by
          unfold readExact
          rw [if_pos (by simp [List.length_drop]; omega)]
        rw [hs2]
        exact rfl
      · rw [if_neg (by omega : ¬(0 + (4 + n) > input.length))]
        have hs2 : readExact (input.drop 4) n
            = .ok ((input.drop 4).take n, (input.drop 4).drop n) := by
          unfold readExact
          rw [if_neg (by simp [List.length_drop]; omega)]
        rw [hs2]
        dsimp only
        have hp : readBytes input (0 + 4) n = (input.drop 4).take n := by
          rw [readBytes_eq_drop_take input (0 + 4) n (by omega)]
        rw [hp]
        exact rfl

/-- C4, amended.  The streaming and slice codecs are semantically
equivalent: for every value the streaming encoder writing to an
in-memory buffer emits exactly the bytes the slice encoder writes; for
every input the two decoders return equal values; every failure
corresponds kind-for-kind with identical payload — except insufficient
input, which the slice API reports as `BufferTooSmall` and the
streaming API as `Io(UnexpectedEof)` (its error enum has no
`BufferTooSmall` variant); signed and float operations desugar to the
same unsigned core with the same casts in both APIs. -/
theorem c4_streaming_slice_equivalence :
    (∀ (w : Nat) (buf : List Byte) (off v : Nat), off + w ≤ buf.length →
      readBytes (encodeFixed w buf off v).2 off w = writeFixed w [] v) ∧
    (∀ (buf : List Byte) (off : Nat) (v : Bool), off + 1 ≤ buf.length →
      readBytes (encode_bool buf off v).2 off 1 = write_bool [] v) ∧
    (∀ (buf : List Byte) (off : Nat) (s : List Byte),
      off + (4 + s.length) ≤ buf.length →
      readBytes (encode_string buf off s).2 off (4 + s.length) = write_string [] s ∧
      readBytes (encode_bytes buf off s).2 off (4 + s.length) = write_bytes [] s) ∧
    (∀ (w : Nat) (input : List Byte), valCorr (decodeFixed w input 0) (readFixed w input)) ∧
    (∀ input : List Byte, boolCorr (decode_bool input 0) (read_bool input)) ∧
    (∀ input : List Byte, payloadCorr (decode_string input 0) (read_string input)) ∧
    (∀ input : List Byte, payloadCorr (decode_bytes input 0) (read_bytes input)) ∧
    (∀ (out buf : List Byte) (off : Nat) (v : Int) (bits : Nat),
      (write_i8 out v = write_u8 out (toTwos (2 ^ 8) v) ∧
        encode_i8 buf off v = encode_u8 buf off (toTwos (2 ^ 8) v)) ∧
      (write_i16 out v = write_u16 out (toTwos (2 ^ 16) v) ∧
        encode_i16 buf off v = encode_u16 buf off (toTwos (2 ^ 16) v)) ∧
      (write_i32 out v = write_u32 out (toTwos (2 ^ 32) v) ∧
        encode_i32 buf off v = encode_u32 buf off (toTwos (2 ^ 32) v)) ∧
      (write_i64 out v = write_u64 out (toTwos (2 ^ 64) v) ∧
        encode_i64 buf off v = encode_u64 buf off (toTwos (2 ^ 64) v)) ∧
      (write_f32 out bits = write_u32 out bits ∧
        encode_f32 buf off bits = encode_u32 buf off bits) ∧
      (write_f64 out bits = write_u64 out bits ∧
        encode_f64 buf off bits = encode_u64 buf off bits)) := by
  refine ⟨?_, ?_, ?_, valCorr_fixed, boolCorr_bool, payloadCorr_string, payloadCorr_bytes,
    fun out buf off v bits =>
      ⟨⟨rfl, rfl⟩, ⟨rfl, rfl⟩, ⟨rfl, rfl⟩, ⟨rfl, rfl⟩, ⟨rfl, rfl⟩, ⟨rfl, rfl⟩⟩⟩
  · intro w buf off v h
    unfold encodeFixed
    rw [if_neg (by omega)]
    rw [readBytes_writeBytes_w buf off w v h]
    unfold writeFixed
    rw [List.nil_append]
  · intro buf off v h
    unfold encode_bool encodeFixed
    rw [if_neg (by omega)]
    dsimp only
    rw [readBytes_writeBytes_w buf off 1 _ h]
    unfold write_bool writeFixed
    rw [List.nil_append]
  · intro buf off s h
    obtain ⟨-, hbs⟩ := encode_string_ok buf off s h
    obtain ⟨-, hbb⟩ := encode_bytes_ok buf off s h
    obtain ⟨-, hpre, hpay⟩ := encoded_string_regions buf off s h
    constructor
    · rw [hbs, readBytes_split _ off 4 s.length, hpre, hpay]
      unfold write_string write_u32 writeFixed
      rw [List.nil_append]
    · rw [hbb, readBytes_split _ off 4 s.length, hpre, hpay]
      unfold write_bytes write_u32 writeFixed
      rw [List.nil_append]

/-- C4 witness: byte-identical encodings and corresponding decodes at
concrete inputs (a `u32`, a `bool`, the string `"Hi"`, and a truncated
buffer where the two APIs report their respective insufficient-input
errors). -/
theorem c4_streaming_slice_witness :
    readBytes (encodeFixed 4 (List.replicate 4 0) 0 0x12345678).2 0 4
      = writeFixed 4 [] 0x12345678 ∧
    readBytes (encode_bool (List.replicate 1 0) 0 true).2 0 1 = write_bool [] true ∧
    readBytes (encode_string (List.replicate 6 0) 0 [0x48, 0x69]).2 0 6
      = write_string [] [0x48, 0x69] ∧
    valCorr (decodeFixed 4 [0x78, 0x56, 0x34, 0x12] 0)
      (readFixed 4 [0x78, 0x56, 0x34, 0x12]) ∧
    valCorr (decodeFixed 4 [0x78] 0) (readFixed 4 [0x78]) ∧
    boolCorr (decode_bool [5] 0) (read_bool [5]) ∧
    payloadCorr (decode_string [2, 0, 0, 0, 0x48, 0x69] 0)
      (read_string [2, 0, 0, 0, 0x48, 0x69]) ∧
    payloadCorr (decode_bytes [2, 0, 0, 0, 0x48] 0) (read_bytes [2, 0, 0, 0, 0x48]) := by
  obtain ⟨he, hb, hs, hv, hbo, hst, hby, -⟩ := c4_streaming_slice_equivalence
  exact ⟨he 4 (List.replicate 4 0) 0 0x12345678 (by decide),
    hb (List.replicate 1 0) 0 true (by decide),
    (hs (List.replicate 6 0) 0 [0x48, 0x69] (by decide)).1,
    hv 4 [0x78, 0x56, 0x34, 0x12], hv 4 [0x78], hbo [5],
    hst [2, 0, 0, 0, 0x48, 0x69], hby [2, 0, 0, 0, 0x48]⟩

end SDP
